import Mathlib

/-!
# Verification of the mass-times extraction core (`mt/src`)

A shallow embedding, in Lean 4, of the parser, extractor, validator and
template-builder logic of the `mt` scraper (files `parser.py`,
`extractor.py`, `validator.py`, `models.py`, `template_builder.py`),
together with proofs settling the specification claims about them.

Modelling conventions:
* Python `float` confidence / cost / ratio values are modelled as `ℚ`
  (all arithmetic the code performs on them — additions of 0.1, `min`,
  divisions of small integers — is exact in both representations).
* Python strings are modelled as `List Char` internally (`String` at the
  API edge); the regexes of `parser.py` are hand-compiled into
  backtracking matchers over `List Char` that mirror the semantics of
  Python `re` for those concrete patterns (leftmost match, ordered
  alternation, greedy quantifiers, look-around).
* I/O boundaries (the `Scraper` fetcher, the Tier-3 LLM call) are
  modelled as explicit oracle arguments: `extract` takes the outcome of
  `_fetch_content` and of `_tier3_llm` as parameters.
* `datetime`-valued fields (`extracted_at`, timestamps) are omitted: no
  claim mentions them and they do not influence any branch.
-/

namespace MT

/-! ## Character classes (ASCII model of Python `\s`, `\d`, `\w`) -/

/-- Python `\s` (ASCII part): space, tab, newline, carriage return,
form feed, vertical tab. -/
def pyIsSpace (c : Char) : Bool :=
  c = ' ' || c = '\t' || c = '\n' || c = '\x0d' || c = '\x0c' || c = '\x0b'

/-- Python `\d` (ASCII): `0`-`9`. -/
def pyIsDigit (c : Char) : Bool := c.isDigit

/-- Python `\w` (ASCII): letters, digits, underscore. -/
def pyIsWord (c : Char) : Bool := c.isAlpha || c.isDigit || c = '_'

/-- Numeric value of a digit character. -/
def digitVal (c : Char) : ℕ := c.toNat - '0'.toNat

/-- `str.strip()` from the left only. -/
def pyLStrip (l : List Char) : List Char := l.dropWhile pyIsSpace

/-- Python `str.strip()`: drop whitespace from both ends. -/
def pyStrip (l : List Char) : List Char :=
  ((l.dropWhile pyIsSpace).reverse.dropWhile pyIsSpace).reverse

/-- `str.strip()` on `String`. -/
def pyStripS (s : String) : String := ⟨pyStrip s.data⟩

/-- Python `text.split("\n")`: split at every newline, keeping empty
pieces. -/
def splitNl : List Char → List (List Char)
  | [] => [[]]
  | c :: rest =>
    let r := splitNl rest
    if c = '\n' then [] :: r
    else
      match r with
      | [] => [[c]]          -- unreachable: splitNl never returns []
      | l :: ls => (c :: l) :: ls

/-- Case-insensitive character comparison (ASCII lowering, as
`re.IGNORECASE` behaves on these patterns). -/
def ciEq (a b : Char) : Bool := a.toLower = b.toLower

/-- Case-insensitive literal match: consume `pat` (case-insensitively)
from the front of `s`, returning the consumed slice (original case) and
the rest. -/
def ciLit : List Char → List Char → Option (List Char × List Char)
  | [], s => some ([], s)
  | _ :: _, [] => none
  | p :: ps, c :: s =>
    if ciEq c p then
      match ciLit ps s with
      | some (g, r) => some (c :: g, r)
      | none => none
    else none

/-- Maximal munch of characters satisfying `p` (Python greedy `X*` over a
single-character class, valid here because every such run is followed by
a token disjoint from the class). Returns (munched, rest). -/
def munch (p : Char → Bool) : List Char → List Char × List Char
  | [] => ([], [])
  | c :: s =>
    if p c then
      let (a, r) := munch p s
      (c :: a, r)
    else ([], c :: s)

/-- Lowercase a character list (Python `str.lower()`, ASCII). -/
def lowerL (l : List Char) : List Char := l.map Char.toLower

/-! ## Time regexes (`parser.py`)

The three patterns

* `TIME_COLON_DOT = (\d{1,2})[:.]\s?(\d{2})\s*([AaPp]\.?\s?[Mm]\.?)`
* `TIME_NO_MINUTES = (?<!\d)(\d{1,2})\s*([AaPp]\.?\s?[Mm]\.?)(?!\s*\d)`
* `TIME_24H = (?<!\d)([01]?\d|2[0-3]):([0-5]\d)(?!\s*[AaPp])`

are hand-compiled into backtracking matchers.  Each `attempt*` function
tries to match at the start of the given suffix (with the preceding
character supplied for look-behind) and returns
`(payload, group0, rest)`.  Greedy sub-patterns try the longer
consumption first and fall back, exactly as the `re` engine does;
optional elements whose follower is disjoint from them reduce to
deterministic consumption. -/

def isAP (c : Char) : Bool := c = 'A' || c = 'a' || c = 'P' || c = 'p'

def isPMletter (c : Char) : Bool := c = 'P' || c = 'p'

def isM (c : Char) : Bool := c = 'M' || c = 'm'

def isSep (c : Char) : Bool := c = ':' || c = '.'

/-- First-match-wins choice (the ordered alternation / backtracking
combinator). -/
def orElseO : Option α → Option α → Option α
  | some r, _ => some r
  | none, b => b

/-- `[Mm]\.?` followed by the continuation check `k` (the pattern part
after the group, a look-ahead or trivially true).  The greedy `\.?` is
tried consumed first, then given back if `k` rejects. -/
def matchMDot (k : List Char → Bool) : List Char → Option (List Char × List Char)
  | [] => none
  | m :: s =>
    if isM m then
      match s with
      | c :: s2 =>
        if c = '.' then
          if k s2 then some ([m, c], s2)
          else if k (c :: s2) then some ([m], c :: s2) else none
        else if k (c :: s2) then some ([m], c :: s2) else none
      | [] => if k [] then some ([m], []) else none
    else none

/-- `\s?[Mm]\.?` then `k`.  If the space is consumed and the rest
fails, the engine retries without it ([Mm] then immediately fails on
the space, so the retry is a faithful no-op). -/
def matchSpM (k : List Char → Bool) : List Char → Option (List Char × List Char)
  | [] => none
  | c :: s2 =>
    if pyIsSpace c then
      match matchMDot k s2 with
      | some (g, r) => some (c :: g, r)
      | none => matchMDot k (c :: s2)
    else matchMDot k (c :: s2)

/-- The am/pm tail `[AaPp]\.?\s?[Mm]\.?` then `k`.  Returns
(is-PM letter, consumed, rest). -/
def matchAmPmTail (k : List Char → Bool) : List Char → Option (Bool × List Char × List Char)
  | [] => none
  | c :: s =>
    if isAP c then
      let tail : Option (List Char × List Char) :=
        match s with
        | d :: s2 =>
          if d = '.' then
            match matchSpM k s2 with
            | some (g, r) => some (d :: g, r)
            | none => matchSpM k (d :: s2)
          else matchSpM k (d :: s2)
        | [] => matchSpM k []
      match tail with
      | some (g, r) => some (isPMletter c, c :: g, r)
      | none => none
    else none

/-- `(\d{2})` — exactly two digits. -/
def twoDigits : List Char → Option (ℕ × List Char × List Char)
  | m1 :: m2 :: s =>
    if pyIsDigit m1 && pyIsDigit m2 then
      some (10 * digitVal m1 + digitVal m2, [m1, m2], s)
    else none
  | _ => none

/-- `\s?(\d{2})` of `TIME_COLON_DOT`: if the optional space is taken and
the digits fail, the retry without it fails at once (a space is not a
digit). -/
def spMin : List Char → Option (List Char × ℕ × List Char)
  | c :: s3 =>
    if pyIsSpace c then
      match twoDigits s3 with
      | some (mn, g, r) => some (c :: g, mn, r)
      | none => (twoDigits (c :: s3)).map fun (mn, g, r) => (g, mn, r)
    else (twoDigits (c :: s3)).map fun (mn, g, r) => (g, mn, r)
  | [] => none

def cdAfterHour (h : ℕ) (hd : List Char) :
    List Char → Option ((ℕ × ℕ × Bool) × List Char × List Char)
  | [] => none
  | sep :: s2 =>
    if isSep sep then
      match spMin s2 with
      | some (gmin, mn, s4) =>
        let (w2, s5) := munch pyIsSpace s4
        match matchAmPmTail (fun _ => true) s5 with
        | some (pm, gt, rest) => some ((h, mn, pm), hd ++ sep :: (gmin ++ w2 ++ gt), rest)
        | none => none
      | none => none
    else none

/-- `TIME_COLON_DOT` attempted at the start of `s` (no look-around in
this pattern; the greedy `\d{1,2}` tries two digits, then one). -/
def attemptCD : List Char → Option ((ℕ × ℕ × Bool) × List Char × List Char)
  | [] => none
  | [d1] => if pyIsDigit d1 then cdAfterHour (digitVal d1) [d1] [] else none
  | d1 :: d2 :: s2 =>
    if pyIsDigit d1 && pyIsDigit d2 then
      orElseO (cdAfterHour (10 * digitVal d1 + digitVal d2) [d1, d2] s2)
        (cdAfterHour (digitVal d1) [d1] (d2 :: s2))
    else if pyIsDigit d1 then cdAfterHour (digitVal d1) [d1] (d2 :: s2)
    else none

/-- The negative look-ahead `(?!\s*\d)` of `TIME_NO_MINUTES`. -/
def nmLA (r : List Char) : Bool :=
  match (munch pyIsSpace r).2 with
  | c :: _ => !pyIsDigit c
  | [] => true

/-- `TIME_NO_MINUTES` after the hour digits: `\s*(tail)(?!\s*\d)`. -/
def nmAfterHour (h : ℕ) (hd : List Char) (s1 : List Char) :
    Option ((ℕ × Bool) × List Char × List Char) :=
  let (w, s2) := munch pyIsSpace s1
  match matchAmPmTail nmLA s2 with
  | some (pm, gt, rest) => some ((h, pm), hd ++ w ++ gt, rest)
  | none => none

/-- Whether the previous character blocks a `(?<!\d)` look-behind. -/
def prevIsDigit (prev : Option Char) : Bool :=
  (prev.map pyIsDigit).getD false

/-- `TIME_NO_MINUTES` attempted at the start of `s`, given the
character before `s` for the look-behind. -/
def attemptNM (prev : Option Char) : List Char → Option ((ℕ × Bool) × List Char × List Char)
  | [] => none
  | [d1] =>
    if prevIsDigit prev then none
    else if pyIsDigit d1 then nmAfterHour (digitVal d1) [d1] [] else none
  | d1 :: d2 :: s2 =>
    if prevIsDigit prev then none
    else if pyIsDigit d1 && pyIsDigit d2 then
      orElseO (nmAfterHour (10 * digitVal d1 + digitVal d2) [d1, d2] s2)
        (nmAfterHour (digitVal d1) [d1] (d2 :: s2))
    else if pyIsDigit d1 then nmAfterHour (digitVal d1) [d1] (d2 :: s2)
    else none

/-- The negative look-ahead `(?!\s*[AaPp])` of `TIME_24H`. -/
def h24LA (r : List Char) : Bool :=
  match (munch pyIsSpace r).2 with
  | c :: _ => !isAP c
  | [] => true

/-- `TIME_24H` after the hour alternative: `:([0-5]\d)(?!\s*[AaPp])`. -/
def h24Cont (h : ℕ) (hd : List Char) :
    List Char → Option ((ℕ × ℕ) × List Char × List Char)
  | c :: m1 :: m2 :: s3 =>
    if c = ':' && ('0' ≤ m1 && m1 ≤ '5') && pyIsDigit m2 && h24LA s3 then
      some ((h, 10 * digitVal m1 + digitVal m2), hd ++ c :: [m1, m2], s3)
    else none
  | _ => none

/-- `TIME_24H` attempted at the start of `s`.  The alternation
`[01]?\d|2[0-3]` is tried in the engine's order: `[01]` consumed, `[01]`
skipped, then `2[0-3]`. -/
def attemptH24 (prev : Option Char) : List Char → Option ((ℕ × ℕ) × List Char × List Char)
  | [] => none
  | [d1] =>
    if prevIsDigit prev then none
    else if pyIsDigit d1 then h24Cont (digitVal d1) [d1] [] else none
  | a :: b :: s2 =>
    if prevIsDigit prev then none
    else
      orElseO
        (if (a = '0' || a = '1') && pyIsDigit b then
          h24Cont (10 * digitVal a + digitVal b) [a, b] s2 else none)
        (orElseO
          (if pyIsDigit a then h24Cont (digitVal a) [a] (b :: s2) else none)
          (if a = '2' && ('0' ≤ b && b ≤ '3') then
            h24Cont (20 + digitVal b) [a, b] s2 else none))

/-! ## Scanning (`pattern.search` and `pattern.finditer`) -/

/-- `pattern.search`: the first position (left to right) where the
attempt succeeds; returns (payload, group0). -/
def searchFirst (attempt : Option Char → List Char → Option (α × List Char × List Char)) :
    Option Char → List Char → Option (α × List Char)
  | _, [] => none
  | prev, c :: rest =>
    match attempt prev (c :: rest) with
    | some (a, g, _) => some (a, g)
    | none => searchFirst attempt (some c) rest

/-- `pattern.finditer`, fuelled (none of the embedded patterns matches
an empty suffix, and every match consumes at least one character, so
`length + 1` fuel always suffices).  After a match the scan resumes at
the match end, with the last consumed character as look-behind. -/
def finditerAux (attempt : Option Char → List Char → Option (α × List Char × List Char)) :
    ℕ → Option Char → List Char → List (α × List Char)
  | 0, _, _ => []
  | _ + 1, _, [] => []
  | fuel + 1, prev, c :: rest =>
    match attempt prev (c :: rest) with
    | some (a, g, r) => (a, g) :: finditerAux attempt fuel g.getLast? r
    | none => finditerAux attempt fuel (some c) rest

def finditer (attempt : Option Char → List Char → Option (α × List Char × List Char))
    (s : List Char) : List (α × List Char) :=
  finditerAux attempt (s.length + 1) none s

/-! ## `ParsedTime`, `parse_time`, `find_times` -/

/-- `parser.ParsedTime`. -/
structure ParsedTime where
  hour : ℕ
  minute : ℕ
  period : String
  original : String
  deriving DecidableEq, Repr

/-- `ParsedTime.formatted`: `f"{hour}:{minute:02d} {period}"`. -/
def ParsedTime.formatted (t : ParsedTime) : String :=
  toString t.hour ++ ":" ++
    (if t.minute < 10 then "0" ++ toString t.minute else toString t.minute) ++
    " " ++ t.period

/-- `ParsedTime.sort_key`: minutes since midnight. -/
def ParsedTime.sort_key (t : ParsedTime) : ℕ :=
  (t.hour % 12 + if t.period = "PM" then 12 else 0) * 60 + t.minute

/-- The `ParsedTime` built from a `TIME_COLON_DOT` or
`TIME_NO_MINUTES` match: `period` is "PM" iff the `[AaPp]` letter was
`P`/`p` (the source strips dots/spaces, uppercases, and tests
`startswith("A")`). -/
def mkParsed (h mn : ℕ) (pm : Bool) (g : List Char) : ParsedTime :=
  ⟨h, mn, if pm then "PM" else "AM", ⟨pyStrip g⟩⟩

/-- The third branch of `parse_time` (24-hour clock). -/
def parse_timeVia24 (s : List Char) : Option ParsedTime :=
  match searchFirst attemptH24 none s with
  | some ((h, mn), g) =>
    if 0 ≤ h ∧ h ≤ 23 ∧ 0 ≤ mn ∧ mn ≤ 59 then
      if h = 0 then some ⟨12, mn, "AM", ⟨pyStrip g⟩⟩
      else if h < 12 then some ⟨h, mn, "AM", ⟨pyStrip g⟩⟩
      else if h = 12 then some ⟨12, mn, "PM", ⟨pyStrip g⟩⟩
      else some ⟨h - 12, mn, "PM", ⟨pyStrip g⟩⟩
    else none
  | none => none

/-- The second branch of `parse_time` (no-minutes form), falling
through to the 24-hour branch. -/
def parse_timeViaNM (s : List Char) : Option ParsedTime :=
  match searchFirst attemptNM none s with
  | some ((h, pm), g) =>
    if 1 ≤ h ∧ h ≤ 12 then some (mkParsed h 0 pm g)
    else parse_timeVia24 s
  | none => parse_timeVia24 s

/-- `parser.parse_time` on character lists: strip, then try the three
patterns in order, each `search` being first-match-only — an invalid
first match falls through to the next pattern, exactly as in the
source. -/
def parse_timeL (s0 : List Char) : Option ParsedTime :=
  let s := pyStrip s0
  match searchFirst (fun _ => attemptCD) none s with
  | some ((h, mn, pm), g) =>
    if 1 ≤ h ∧ h ≤ 12 ∧ 0 ≤ mn ∧ mn ≤ 59 then some (mkParsed h mn pm g)
    else parse_timeViaNM s
  | none => parse_timeViaNM s

/-- `parser.parse_time`. -/
def parse_time (s : String) : Option ParsedTime := parse_timeL s.data

/-- The group-0 slices of all matches of the three time patterns, in
scan order (`for pattern in [...]: for m in pattern.finditer(text)`). -/
def timeMatchGroups (s : List Char) : List (List Char) :=
  (finditer (fun _ => attemptCD) s).map (·.2) ++
    (finditer attemptNM s).map (·.2) ++
    (finditer attemptH24 s).map (·.2)

/-- The collection loop of `find_times`: parse each match's group 0,
dropping failures and times whose formatted string was already seen. -/
def collectTimes : List (List Char) → List String → List ParsedTime
  | [], _ => []
  | g :: gs, seen =>
    match parse_timeL g with
    | some p =>
      if p.formatted ∈ seen then collectTimes gs seen
      else p :: collectTimes gs (p.formatted :: seen)
    | none => collectTimes gs seen

/-- The `results.sort(key=lambda t: t.sort_key)` order. -/
def ptLe (a b : ParsedTime) : Prop := a.sort_key ≤ b.sort_key

instance : DecidableRel ptLe := fun a b =>
  inferInstanceAs (Decidable (a.sort_key ≤ b.sort_key))

instance : IsTotal ParsedTime ptLe where
  total a b := Nat.le_total a.sort_key b.sort_key

instance : IsTrans ParsedTime ptLe where
  trans _ _ _ hab hbc := Nat.le_trans hab hbc

/-- `parser.find_times` on character lists. -/
def find_timesL (s : List Char) : List ParsedTime :=
  List.insertionSort ptLe (collectTimes (timeMatchGroups s) [])

/-- `parser.find_times`. -/
def find_times (s : String) : List ParsedTime := find_timesL s.data

/-! ### Well-formedness of parsed times -/

/-- Every `ParsedTime` that `parse_time` returns satisfies the
validation bounds it enforces. -/
def ParsedTime.Valid (p : ParsedTime) : Prop :=
  1 ≤ p.hour ∧ p.hour ≤ 12 ∧ p.minute ≤ 59 ∧ (p.period = "AM" ∨ p.period = "PM")

/-! ## Data model (`models.py`) -/

inductive SourceType where
  | ical_feed | structured_data | website_page | pdf_bulletin | facebook_page
  deriving DecidableEq, Repr

inductive ExtractionTier where
  | tier1_static | tier2_code | tier3_llm
  deriving DecidableEq, Repr

inductive ValidationStatus where
  | confirmed | provisional | flagged
  deriving DecidableEq, Repr

/-- `models.MassTime` (the two optional effective-date fields are
omitted: nothing in the verified code reads or writes them). -/
structure MassTime where
  day : String
  time : String
  mass_type : String := "Regular"
  language : String := "English"
  notes : String := ""
  deriving DecidableEq, Repr

/-- `models.ExtractionResult` with its dataclass defaults
(`extracted_at` omitted; `raw_content_path` omitted — never touched by
the verified code). Confidence and cost are `ℚ` models of the floats. -/
structure ExtractionResult where
  parish_id : String
  times : List MassTime := []
  tier : ExtractionTier := .tier1_static
  confidence : ℚ := 1
  validation_status : ValidationStatus := .confirmed
  source_url : String := ""
  source_type : SourceType := .website_page
  content_hash : String := ""
  llm_model : Option String := none
  llm_cost_usd : ℚ := 0
  changes_from_previous : List String := []
  deriving DecidableEq, Repr

/-! ## Templates (`template_builder.py` dataclasses, the fields the
extractor and validator read) -/

/-- `template_builder.WebTemplate` — only `url` is read by the logic
modelled here (the CSS-selection itself happens inside the
BeautifulSoup/fetch boundary, which is an oracle). -/
structure WebTemplate where
  url : String := ""
  deriving DecidableEq, Repr

/-- `template_builder.PdfTemplate` — the fields `extract` and
`_tier1_static` read. -/
structure PdfTemplate where
  bulletin_page_url : String := ""
  pdf_link_pattern : String := ""
  mass_times_page : ℕ := 0
  section_static : Bool := true
  deriving DecidableEq, Repr

/-- The `validation_rules` dict: a partial map from the four known keys,
read with `dict.get(key, default)`. -/
structure ValidationRules where
  min_weekly_masses : Option ℕ := none
  max_weekly_masses : Option ℕ := none
  expected_sunday_count : Option ℕ := none
  alert_if_all_change : Option Bool := none
  deriving DecidableEq, Repr

def ValidationRules.minMasses (r : ValidationRules) : ℕ :=
  r.min_weekly_masses.getD 5

def ValidationRules.maxMasses (r : ValidationRules) : ℕ :=
  r.max_weekly_masses.getD 20

def ValidationRules.expectedSunday (r : ValidationRules) : ℕ :=
  r.expected_sunday_count.getD 0

def ValidationRules.alertAllChange (r : ValidationRules) : Bool :=
  r.alert_if_all_change.getD true

/-- `template_builder.ParishTemplate`, restricted to the fields the
extraction pipeline reads.  `baseline_times` is the insertion-ordered
dict `day → list of formatted times`, modelled as an association list. -/
structure ParishTemplate where
  parish_id : String := ""
  source_type : String := ""
  web_template : Option WebTemplate := none
  pdf_template : Option PdfTemplate := none
  baseline_times : List (String × List String) := []
  validation_rules : ValidationRules := {}
  deriving DecidableEq, Repr

/-! ## Validator (`validator.py`) -/

/-- The set of `(day, time)` pairs of a list of mass times
(`{(t.day, t.time) for t in times}`). -/
def pairSet (times : List MassTime) : Finset (String × String) :=
  (times.map fun t => (t.day, t.time)).toFinset

/-- The issues `validate_extraction` can append.  In the source these
are message strings; the status dispatch tests
`"differs from expected" in issues[0]`, a phrase occurring only in the
Sunday-count message, so the dispatch is faithfully modelled by the
`sundayDiffers` constructor test below. -/
inductive Issue where
  | tooFew (found min : ℕ)
  | tooMany (found max : ℕ)
  | noSunday
  | sundayDiffers (found expected : ℕ)
  | allChange (changed : ℕ) (ratio : ℚ)
  deriving DecidableEq, Repr, Inhabited

/-- Whether an issue's message contains `"differs from expected"`:
exactly the `sundayDiffers` message does. -/
def Issue.mentionsDiffers : Issue → Bool
  | .sundayDiffers _ _ => true
  | _ => false

/-- Rendering of an issue, for `changes_from_previous` (the `.0%` float
formatting of the change ratio is abstracted as a plain rational
rendering; no verified code reads these strings back). -/
def Issue.msg : Issue → String
  | .tooFew n m => "Only " ++ toString n ++ " masses found (min: " ++ toString m ++ ")"
  | .tooMany n m => toString n ++ " masses found (max: " ++ toString m ++ ")"
  | .noSunday => "No Sunday masses found"
  | .sundayDiffers c e =>
      "Sunday count " ++ toString c ++ " differs from expected " ++ toString e
  | .allChange n r =>
      toString n ++ " times changed (" ++ toString r ++ ") — possible extraction error"

/-- The issue list `validate_extraction` accumulates for a non-empty
`times`, in source order (rules 1-4). -/
def computeIssues (result : ExtractionResult) (rules : ValidationRules)
    (previous_times : Option (List MassTime)) : List Issue :=
  let n := result.times.length
  -- Rule 1: minimum mass count
  let i1 : List Issue := if n < rules.minMasses then [.tooFew n rules.minMasses] else []
  -- Rule 2: maximum mass count
  let i2 : List Issue := if n > rules.maxMasses then [.tooMany n rules.maxMasses] else []
  -- Rule 3: expected Sunday count
  let i3 : List Issue :=
    if rules.expectedSunday > 0 then
      let sunday_count := (result.times.filter fun t => t.day = "Sunday").length
      if sunday_count = 0 then [.noSunday]
      else if (sunday_count : ℤ) - rules.expectedSunday > 1 ∨
              (rules.expectedSunday : ℤ) - sunday_count > 1 then
        [.sundayDiffers sunday_count rules.expectedSunday]
      else []
    else []
  -- Rule 4: compare against previous extraction
  let i4 : List Issue :=
    match previous_times with
    | none => []
    | some prev =>
      if prev ≠ [] then
        let prev_set := pairSet prev
        let curr_set := pairSet result.times
        if prev_set.Nonempty ∧ curr_set.Nonempty then
          let changed := (prev_set \ curr_set) ∪ (curr_set \ prev_set)
          let change_ratio : ℚ :=
            (changed.card : ℚ) / (max prev_set.card curr_set.card : ℚ)
          if change_ratio > 1/2 then
            if rules.alertAllChange then [.allChange changed.card change_ratio] else []
          else []
        else []
      else []
  i1 ++ i2 ++ i3 ++ i4

/-- `validator.validate_extraction`. -/
def validate_extraction (result : ExtractionResult) (rules : ValidationRules)
    (previous_times : Option (List MassTime) := none) : ExtractionResult :=
  if result.times = [] then
    { result with validation_status := .flagged, confidence := 0 }
  else
    let issues := computeIssues result rules previous_times
    let result' :=
      if issues = [] then
        { result with validation_status := .confirmed }
      else if issues.length = 1 ∧ (issues.headI).mentionsDiffers then
        { result with validation_status := .provisional,
                      confidence := min result.confidence (7/10) }
      else
        { result with validation_status := .flagged,
                      confidence := min result.confidence (3/10) }
    if issues ≠ [] then
      { result' with changes_from_previous :=
          result'.changes_from_previous ++ issues.map Issue.msg }
    else result'

/-- The `source_priority` dict of `cross_reference`
(`.get(value, 99)` — note `facebook_page` is absent and gets 99). -/
def crPriority : SourceType → ℕ
  | .ical_feed => 0
  | .structured_data => 1
  | .website_page => 2
  | .pdf_bulletin => 3
  | .facebook_page => 99

/-- The sort order of `cross_reference`: ascending in the tuple key
`(source_type_priority, -confidence)`. -/
def crLe (a b : ExtractionResult) : Prop :=
  crPriority a.source_type < crPriority b.source_type ∨
    (crPriority a.source_type = crPriority b.source_type ∧
      -a.confidence ≤ -b.confidence)

instance : DecidableRel crLe := fun a b =>
  inferInstanceAs (Decidable (crPriority a.source_type < crPriority b.source_type ∨
    (crPriority a.source_type = crPriority b.source_type ∧
      -a.confidence ≤ -b.confidence)))

instance : IsTotal ExtractionResult crLe where
  total a b := by
    unfold crLe
    rcases Nat.lt_trichotomy (crPriority a.source_type) (crPriority b.source_type) with h | h | h
    · exact .inl (.inl h)
    · rcases le_total (-a.confidence) (-b.confidence) with h' | h'
      · exact .inl (.inr ⟨h, h'⟩)
      · exact .inr (.inr ⟨h.symm, h'⟩)
    · exact .inr (.inl h)

instance : IsTrans ExtractionResult crLe where
  trans a b c hab hbc := by
    rcases hab with h1 | ⟨h1, h1'⟩ <;> rcases hbc with h2 | ⟨h2, h2'⟩
    · exact .inl (h1.trans h2)
    · exact .inl (h2 ▸ h1)
    · exact .inl (h1 ▸ h2)
    · exact .inr ⟨h1.trans h2, h1'.trans h2'⟩

/-- The list `cross_reference` works on after the in-place sort
(`list.sort` is stable, as is `List.insertionSort`). -/
def crSorted (results : List ExtractionResult) : List ExtractionResult :=
  results.insertionSort crLe

/-- The agreement check of `cross_reference` between the top two
sorted results: if both `(day,time)` sets are non-empty and they
overlap on more than 80 % of the larger set, boost the best result's
confidence by 0.1 (capped at 1.0) and confirm it. -/
def crBoost (best second : ExtractionResult) : ExtractionResult :=
  let times_a := pairSet best.times
  let times_b := pairSet second.times
  if times_a.Nonempty ∧ times_b.Nonempty then
    let overlap := times_a ∩ times_b
    let overlap_ratio : ℚ :=
      (overlap.card : ℚ) / (max times_a.card times_b.card : ℚ)
    if overlap_ratio > 8/10 then
      { best with confidence := min 1 (best.confidence + 1/10),
                  validation_status := .confirmed }
    else best
  else best

/-- `validator.cross_reference`. -/
def cross_reference (results : List ExtractionResult) : Option ExtractionResult :=
  match results with
  | [] => none
  | [r] => some r
  | _ :: _ :: _ =>
    match crSorted results with
    | [] => none            -- unreachable: the sort permutes a non-empty list
    | [best] => some best   -- unreachable: here `len(results) >= 2`
    | best :: second :: _ => some (crBoost best second)

/-! ## PDF static/dynamic classification
(`TemplateBuilder._classify_static_dynamic`) -/

/-- The all-pairs similarity check: `for i, for j in range(i+1, …)`
returning `False` on the first pair with ratio < 0.95. -/
def allPairsSimilar (ratio : String → String → ℚ) : List String → Bool
  | [] => true
  | t :: rest => (rest.all fun u => !(ratio t u < 95/100)) && allPairsSimilar ratio rest

/-- `TemplateBuilder._classify_static_dynamic`.  The PDF bytes and the
fetcher's `extract_text_from_region` are oracles (`β` and
`extractRegion`); `SequenceMatcher(None, a, b).ratio()` is the oracle
`ratio`. -/
def classify_static_dynamic {β : Type} (extractRegion : β → String)
    (ratio : String → String → ℚ) (pdf_bytes_list : List β) : Bool :=
  if pdf_bytes_list.length < 2 then true  -- can't determine, assume static
  else
    let texts := pdf_bytes_list.map fun b => pyStripS (extractRegion b)
    if texts = [] then true
    else allPairsSimilar ratio texts

/-! ## Day names (`parser.py`: `DAYS_FULL`, `DAYS_ABBREV`,
`normalise_day`, `expand_day_range`) -/

def DAYS_FULL : List String :=
  ["Monday", "Tuesday", "Wednesday", "Thursday", "Friday", "Saturday", "Sunday"]

def DAYS_ABBREV : List String :=
  ["Mon", "Tue", "Wed", "Thu", "Fri", "Sat", "Sun"]

/-- Python `str.rstrip(".")`. -/
def rstripDot (l : List Char) : List Char :=
  (l.reverse.dropWhile (· = '.')).reverse

/-- Case-insensitive equality of character lists. -/
def ciEqL (a b : List Char) : Bool := lowerL a = lowerL b

/-- Case-insensitive "starts with". -/
def ciStartsWith (l pre : List Char) : Bool :=
  lowerL pre <+: lowerL l

/-- `parser.normalise_day`: strip whitespace, strip trailing dots, then
match either a full day name (case-insensitively) or a three-letter
prefix. -/
def normalise_day (text : String) : Option String :=
  let t := rstripDot (pyStrip text.data)
  (List.zip DAYS_FULL DAYS_ABBREV).findSome? fun (full, abbr) =>
    if ciEqL t full.data || ciStartsWith t abbr.data then some full else none

/-! ## Day regexes (`parser.py`)

* `DAY_FULL_RE = (Monday|…|Sunday)` (ci)
* `DAY_ABBREV_RE = (Mon|…|Sun)\.?(?:day)?` (ci)
* `DAY_RANGE_RE = (full)\s*[-–—to]+\s*(full)` (ci)
* `WEEKDAY_RE = \b(Weekday)s?\b`, `WEEKEND_RE = \b(Weekend)s?\b` (ci)
-/

def prevIsWord (prev : Option Char) : Bool :=
  (prev.map pyIsWord).getD false

/-- `\b` between a previous character and the rest of the input. -/
def atBoundary (cprev : Option Char) (rest : List Char) : Bool :=
  ((cprev.map pyIsWord).getD false) != (match rest with
    | c :: _ => pyIsWord c
    | [] => false)

/-- `\b` right after a word character. -/
def bAfter (rest : List Char) : Bool :=
  match rest with
  | c :: _ => !pyIsWord c
  | [] => true

/-- Ordered alternation of case-insensitive literals (the engine tries
them left to right; none of the alternative sets used here contains a
prefix of another member, so at most one can match at a position). -/
def attemptAltLit : List (List Char) → List Char → Option (List Char × List Char)
  | [], _ => none
  | a :: alts, s =>
    match ciLit a s with
    | some (g, r) => some (g, r)
    | none => attemptAltLit alts s

def dayFullAlts : List (List Char) := DAYS_FULL.map String.data

def dayAbbrevAlts : List (List Char) := DAYS_ABBREV.map String.data

/-- `DAY_FULL_RE` attempt; payload is group 1 (= group 0). -/
def attemptDayFull (_prev : Option Char) (s : List Char) :
    Option (List Char × List Char × List Char) :=
  match attemptAltLit dayFullAlts s with
  | some (g, r) => some (g, g, r)
  | none => none

/-- `DAY_ABBREV_RE` attempt: abbreviation, optional `.`, optional
`day` (both greedy; nothing follows, so maximal munch is exact). -/
def attemptDayAbbrev (_prev : Option Char) (s : List Char) :
    Option (List Char × List Char × List Char) :=
  match attemptAltLit dayAbbrevAlts s with
  | some (g1, r1) =>
    let (d1, r2) : List Char × List Char :=
      match r1 with
      | '.' :: t => (['.'], t)
      | _ => ([], r1)
    let (dy, r3) : List Char × List Char :=
      match ciLit "day".data r2 with
      | some (g, r) => (g, r)
      | none => ([], r2)
    some (g1, g1 ++ d1 ++ dy, r3)
  | none => none

/-- The separator class `[-–—to]+` of `DAY_RANGE_RE` (with
`re.IGNORECASE`, `t`/`o` also match uppercase). -/
def isRangeSep (c : Char) : Bool :=
  c = '-' || c = '–' || c = '—' || c = 't' || c = 'o' || c = 'T' || c = 'O'

/-- The greedy `[-–—to]+\s*(full-day)` suffix of `DAY_RANGE_RE`:
consume separator characters as long as possible, backtracking from the
longest run down until `\s*(day)` matches.  Returns
(consumed, group 2, rest). -/
def sepPlusName : List Char → Option (List Char × List Char × List Char)
  | [] => none
  | c :: t =>
    if isRangeSep c then
      match sepPlusName t with
      | some (con, g2, rest) => some (c :: con, g2, rest)
      | none =>
        let (w2, r3) := munch pyIsSpace t
        match attemptAltLit dayFullAlts r3 with
        | some (g2, rest) => some (c :: (w2 ++ g2), g2, rest)
        | none => none
    else none

/-- `DAY_RANGE_RE` attempt; payload is (group 1, group 2). -/
def attemptDayRange (_prev : Option Char) (s : List Char) :
    Option ((List Char × List Char) × List Char × List Char) :=
  match attemptAltLit dayFullAlts s with
  | some (g1, r1) =>
    let (w1, r2) := munch pyIsSpace r1
    match sepPlusName r2 with
    | some (con, g2, rest) => some ((g1, g2), g1 ++ w1 ++ con, rest)
    | none => none
  | none => none

/-- `\b(word)s?\b` attempt (for `WEEKDAY_RE` / `WEEKEND_RE`): the
greedy `s?` is retried without the `s` when the trailing boundary
fails (that retry always fails — the `s` itself is a word char). -/
def attemptWordS (w : String) (prev : Option Char) (s : List Char) :
    Option (Unit × List Char × List Char) :=
  if prevIsWord prev then none
  else
    match ciLit w.data s with
    | some (g, r) =>
      match r with
      | c :: r2 =>
        if c = 's' || c = 'S' then
          if bAfter r2 then some ((), g ++ [c], r2)
          else if bAfter r then some ((), g, r) else none
        else if bAfter r then some ((), g, r) else none
      | [] => some ((), g, [])
    | none => none

/-- `pattern.search(text)` used as a boolean. -/
def searchB (attempt : Option Char → List Char → Option (α × List Char × List Char))
    (s : List Char) : Bool :=
  (searchFirst attempt none s).isSome

/-- Append `new` days to `acc`, skipping ones already present
(`if d not in seen: days.append(d); seen.add(d)`). -/
def addDays : List String → List String → List String
  | acc, [] => acc
  | acc, d :: rest => addDays (if d ∈ acc then acc else acc ++ [d]) rest

/-- `parser.expand_day_range`. -/
def expand_day_range (start stop : String) : List String :=
  match normalise_day start, normalise_day stop with
  | some start_norm, some end_norm =>
    let start_idx := DAYS_FULL.indexOf start_norm
    let end_idx := DAYS_FULL.indexOf end_norm
    if start_idx ≤ end_idx then
      (DAYS_FULL.drop start_idx).take (end_idx + 1 - start_idx)
    else
      DAYS_FULL.drop start_idx ++ DAYS_FULL.take (end_idx + 1)
  | _, _ => []

/-- `parser.find_days`: ranges first, then `Weekday`/`Weekend`
keywords, then full names, then abbreviations, deduplicating in order
of first appearance. -/
def find_daysL (s : List Char) : List String :=
  let acc1 := addDays []
    (((finditer attemptDayRange s).map fun m =>
      expand_day_range ⟨m.1.1⟩ ⟨m.1.2⟩).flatten)
  let acc2 := if searchB (attemptWordS "Weekday") s
    then addDays acc1 (DAYS_FULL.take 5) else acc1
  let acc3 := if searchB (attemptWordS "Weekend") s
    then addDays acc2 (DAYS_FULL.drop 5) else acc2
  let acc4 := addDays acc3
    ((finditer attemptDayFull s).filterMap fun m => normalise_day ⟨m.1⟩)
  addDays acc4
    ((finditer attemptDayAbbrev s).filterMap fun m => normalise_day ⟨m.1⟩)

/-- `parser.find_days`. -/
def find_days (s : String) : List String := find_daysL s.data

/-! ## Change indicators, language and special-type detection
(`parser.py`) -/

/-- Tokens of the hand-compiled indicator regexes: case-insensitive
literal, `\s+`, `\s*`, `\w+`, and an optional single character
(greedy, retried unconsumed on failure of the continuation). -/
inductive RTok where
  | lit (s : String)
  | wsP
  | wsS
  | wordP
  | optc (cs : String)

/-- `\s+`. -/
def wsPlus (s : List Char) : Option (List Char × List Char) :=
  match munch pyIsSpace s with
  | ([], _) => none
  | (w, r) => some (w, r)

/-- `\w+`. -/
def wordPlus (s : List Char) : Option (List Char × List Char) :=
  match munch pyIsWord s with
  | ([], _) => none
  | (w, r) => some (w, r)

/-- Run a token sequence at the start of `s` with a final continuation
check `k` (the trailing `\b`, or trivially true).  `\s+`/`\s*`/`\w+`
use maximal munch — in every pattern below the following token is
disjoint from the munched class, so this is the engine's behaviour. -/
def runToks (k : List Char → Bool) : List RTok → List Char → Option (List Char × List Char)
  | [], s => if k s then some ([], s) else none
  | t :: ts, s =>
    match t with
    | .lit p =>
      match ciLit p.data s with
      | some (g, r) => (runToks k ts r).map fun (g2, r2) => (g ++ g2, r2)
      | none => none
    | .wsP =>
      match wsPlus s with
      | some (w, r) => (runToks k ts r).map fun (g2, r2) => (w ++ g2, r2)
      | none => none
    | .wsS =>
      let (w, r) := munch pyIsSpace s
      (runToks k ts r).map fun (g2, r2) => (w ++ g2, r2)
    | .wordP =>
      match wordPlus s with
      | some (w, r) => (runToks k ts r).map fun (g2, r2) => (w ++ g2, r2)
      | none => none
    | .optc cs =>
      match s with
      | c :: r =>
        if cs.data.any (ciEq c) then
          match runToks k ts r with
          | some (g2, r2) => some (c :: g2, r2)
          | none => runToks k ts (c :: r)
        else runToks k ts (c :: r)
      | [] => runToks k ts []

/-- An indicator pattern: token list plus whether a trailing `\b`
follows (every such pattern ends in a word character, so the trailing
boundary is `bAfter`). -/
def mkIndicatorAttempt (toks : List RTok) (needB : Bool)
    (prev : Option Char) (s : List Char) : Option (Unit × List Char × List Char) :=
  if prevIsWord prev then none
  else
    match runToks (fun r => !needB || bAfter r) toks s with
    | some (g, r) => some ((), g, r)
    | none => none

/-- The eleven `CHANGE_INDICATORS` patterns, in source order. -/
def CHANGE_INDICATORS : List (List RTok × Bool) :=
  [ ([.lit "no", .wsP, .lit "mass"], true),
    ([.lit "mass", .wsP, .lit "cancel", .optc "l", .lit "ed"], true),
    ([.lit "cancel", .optc "l", .lit "ed"], true),
    ([.lit "change", .optc "d", .wsP, .lit "to"], true),
    ([.lit "note", .wsS, .lit ":"], false),
    ([.lit "please", .wsP, .lit "note"], true),
    ([.lit "no", .wsP, .wordP, .wsP, .lit "this", .wsP, .lit "week"], true),
    ([.lit "instead"], true),
    ([.lit "will", .wsP, .lit "not", .wsP, .lit "be", .wsP, .lit "held"], true),
    ([.lit "move", .optc "d", .wsP, .lit "to"], true),
    ([.lit "rescheduled"], true) ]

/-- `parser.detect_change_indicators`: every match (its `group(0)`) of
every indicator pattern, in pattern order. -/
def detect_change_indicatorsL (s : List Char) : List String :=
  (CHANGE_INDICATORS.map fun (toks, b) =>
    (finditer (mkIndicatorAttempt toks b) s).map fun m => (⟨m.2⟩ : String)).flatten

/-- `parser.detect_change_indicators`. -/
def detect_change_indicators (s : String) : List String :=
  detect_change_indicatorsL s.data

/-- The `LANGUAGE_RE` alternatives, in source order. -/
def LANGUAGES : List String :=
  ["Italian", "Vietnamese", "Latin", "Polish", "Croatian", "Korean", "Chinese",
   "Spanish", "Maltese", "Filipino", "Tagalog", "Slavonic"]

/-- `LANGUAGE_RE = \b(…)\b` (ci) attempt.  No alternative is a prefix
of another, so at most one can consume characters at a position; the
trailing-boundary check therefore need not retry other alternatives. -/
def attemptLang (prev : Option Char) (s : List Char) :
    Option (List Char × List Char × List Char) :=
  if prevIsWord prev then none
  else
    match attemptAltLit (LANGUAGES.map String.data) s with
    | some (g, r) => if bAfter r then some (g, g, r) else none
    | none => none

/-- Python `str.title()` (ASCII model). -/
def titleL : List Char → Bool → List Char
  | [], _ => []
  | c :: r, prevAlpha =>
    (if c.isAlpha then (if prevAlpha then c.toLower else c.toUpper) else c) ::
      titleL r c.isAlpha

/-- `parser.detect_language`. -/
def detect_language (line : String) : String :=
  match searchFirst attemptLang none line.data with
  | some (g, _) => ⟨titleL g false⟩
  | none => "English"

/-- The apostrophe character (`'`). -/
def apos : Char := Char.ofNat 39

/-- Give back trailing `\s*` characters one at a time (longest first)
until the position satisfies `\b`; used for the `Latin\s*(?:…)?` and
`Children…\s*(?:…)?` alternatives when the optional group is absent.
`base` is what precedes the spaces; `wRev` the munched spaces,
reversed. -/
def shrinkWs (base : List Char) : List Char → List Char → Option (List Char × List Char)
  | wRev, r =>
    if atBoundary (match wRev with | c :: _ => some c | [] => base.getLast?) r then
      some (base ++ wRev.reverse, r)
    else
      match wRev with
      | [] => none
      | c :: wRev' => shrinkWs base wRev' (c :: r)

/-- Check the trailing `\b` after `consumed`. -/
def bCheck (consumed rest : List Char) : Option (List Char × List Char) :=
  if atBoundary consumed.getLast? rest then some (consumed, rest) else none

/-- The `Latin\s*(?:Mass|Rite)?` alternative of `SPECIAL_MARKERS_RE`
(with the trailing `\b` of the whole pattern). -/
def latinAlt (s : List Char) : Option (List Char × List Char) :=
  match ciLit "latin".data s with
  | some (g, r1) =>
    let (w, r2) := munch pyIsSpace r1
    orElseO
      (match ciLit "mass".data r2 with
        | some (g2, r3) => bCheck (g ++ w ++ g2) r3
        | none => none)
      (orElseO
        (match ciLit "rite".data r2 with
          | some (g2, r3) => bCheck (g ++ w ++ g2) r3
          | none => none)
        (shrinkWs g w.reverse r2))
  | none => none

/-- `\s*(?:Liturgy|Mass)?` plus trailing `\b`, after
`Children'?s?`. -/
def childTail (base : List Char) (r : List Char) : Option (List Char × List Char) :=
  let (w, r2) := munch pyIsSpace r
  orElseO
    (match ciLit "liturgy".data r2 with
      | some (g2, r3) => bCheck (base ++ w ++ g2) r3
      | none => none)
    (orElseO
      (match ciLit "mass".data r2 with
        | some (g2, r3) => bCheck (base ++ w ++ g2) r3
        | none => none)
      (shrinkWs base w.reverse r2))

/-- `s?` (ci) before `childTail`, greedy with backtracking. -/
def childS (base : List Char) (r : List Char) : Option (List Char × List Char) :=
  orElseO
    (match r with
      | c :: r2 => if c = 's' || c = 'S' then childTail (base ++ [c]) r2 else none
      | [] => none)
    (childTail base r)

/-- The `Children'?s?\s*(?:Liturgy|Mass)` alternative. -/
def childrenAlt (s : List Char) : Option (List Char × List Char) :=
  match ciLit "children".data s with
  | some (g, r1) =>
    orElseO
      (match r1 with
        | c :: r2 => if c = apos then childS (g ++ [c]) r2 else none
        | [] => none)
      (childS g r1)
  | none => none

/-- A plain literal alternative with trailing `\b`. -/
def litBAlt (w : String) (s : List Char) : Option (List Char × List Char) :=
  match ciLit w.data s with
  | some (g, r) => bCheck g r
  | none => none

/-- A two-word `A\s+B` alternative with trailing `\b`. -/
def twoWordAlt (a b : String) (s : List Char) : Option (List Char × List Char) :=
  match ciLit a.data s with
  | some (g1, r1) =>
    match wsPlus r1 with
    | some (w, r2) =>
      match ciLit b.data r2 with
      | some (g2, r3) => bCheck (g1 ++ w ++ g2) r3
      | none => none
    | none => none
  | none => none

/-- `SPECIAL_MARKERS_RE` attempt: the alternatives in source order
(`Vigil`, `Reconciliation`, `Adoration`, `Latin…`, `Children…`,
`First Friday`, `First Saturday`, `Holy Day`, `School Term`), each
followed by the trailing `\b`. -/
def attemptSpecial (prev : Option Char) (s : List Char) :
    Option (List Char × List Char × List Char) :=
  if prevIsWord prev then none
  else
    match
      orElseO (litBAlt "Vigil" s)
        (orElseO (litBAlt "Reconciliation" s)
          (orElseO (litBAlt "Adoration" s)
            (orElseO (latinAlt s)
              (orElseO (childrenAlt s)
                (orElseO (twoWordAlt "First" "Friday" s)
                  (orElseO (twoWordAlt "First" "Saturday" s)
                    (orElseO (twoWordAlt "Holy" "Day" s)
                      (twoWordAlt "School" "Term" s)))))))) with
    | some (g, r) => some (g, g, r)
    | none => none

/-- The `re.match(r'holy\s+day', raw, re.IGNORECASE)` test. -/
def holyDayPrefix (raw : List Char) : Bool :=
  match ciLit "holy".data raw with
  | some (_, r1) =>
    match wsPlus r1 with
    | some (_, r2) => (ciLit "day".data r2).isSome
    | none => false
  | none => false

/-- `parser.detect_special_type`. -/
def detect_special_type (line : String) : String :=
  match searchFirst attemptSpecial none line.data with
  | some (g, _) =>
    let raw := pyStrip g
    if ciStartsWith raw "vigil".data then "Vigil"
    else if ciStartsWith raw "reconcil".data then "Reconciliation"
    else if ciStartsWith raw "ador".data then "Adoration"
    else if ciStartsWith raw "latin".data then "Latin Rite"
    else if ciStartsWith raw "children".data then "Children's Liturgy"
    else if holyDayPrefix raw then "Holy Day"
    else ⟨raw⟩
  | none => "Regular"

/-! ## `parse_day_time_block` (`parser.py`) -/

/-- Append `v` to the entry of `k` in an insertion-ordered dict
(`if day not in result: result[day] = []` then
`result[day].extend(v)`). -/
def dictAppend (m : List (String × List String)) (k : String) (v : List String) :
    List (String × List String) :=
  match m with
  | [] => [(k, v)]
  | (k', v') :: rest =>
    if k' = k then (k', v' ++ v) :: rest
    else (k', v') :: dictAppend rest k v

/-- `parser.parse_day_time_block` on character lists: split the
stripped text into lines; each stripped non-empty line with both days
and times appends all its formatted times to every one of its days. -/
def parse_day_time_blockL (text : List Char) : List (String × List String) :=
  (splitNl (pyStrip text)).foldl (fun result line =>
    let l := pyStrip line
    if l = [] then result
    else
      let days := find_daysL l
      let times := find_timesL l
      if days ≠ [] ∧ times ≠ [] then
        let time_strs := times.map ParsedTime.formatted
        days.foldl (fun res day => dictAppend res day time_strs) result
      else result) []

/-- `parser.parse_day_time_block`. -/
def parse_day_time_block (text : String) : List (String × List String) :=
  parse_day_time_blockL text.data

/-! ## Extractor (`extractor.py`)

`Extractor.extract` is modelled with its two I/O boundaries as oracle
arguments: `fetched` is the outcome of `_fetch_content` (the text and
content hash, or `none`), and `llm` is the outcome the `_tier3_llm`
call would produce when the pipeline reaches it (Python signature
`(mass_times | None, cost)`). -/

/-- `SourceType(template.source_type) if template.source_type else
SourceType.WEBSITE_PAGE`.  (For a non-empty string that is not an enum
value Python raises `ValueError`; no claim exercises that, and it is
modelled as `website_page`.) -/
def sourceTypeOfStr (s : String) : SourceType :=
  if s = "ical_feed" then .ical_feed
  else if s = "structured_data" then .structured_data
  else if s = "pdf_bulletin" then .pdf_bulletin
  else if s = "facebook_page" then .facebook_page
  else .website_page

/-- The baseline → `MassTime` conversion loop of `_tier1_static`
(insertion order of the `baseline_times` dict). -/
def flattenBaseline (bl : List (String × List String)) : List MassTime :=
  bl.flatMap fun (day, times) => times.map fun t => { day := day, time := t }

/-- `Extractor._tier1_static`. -/
def tier1_static (template : ParishTemplate) (text : String) : Option (List MassTime) :=
  if template.baseline_times = [] then none       -- no baseline to confirm against
  else if detect_change_indicators text ≠ [] then none  -- escalate to Tier 2
  else if (match template.pdf_template with
           | some p => !p.section_static
           | none => false) then none             -- dynamic section, need Tier 2
  else
    let mass_times := flattenBaseline template.baseline_times
    if mass_times = [] then none else some mass_times

/-- `line.replace(" ", "").lower()`. -/
def removeSpacesLower (l : List Char) : List Char :=
  lowerL (l.filter fun c => c ≠ ' ')

/-- Python's substring test `needle in hay`. -/
def containsSub (needle hay : List Char) : Bool :=
  match hay with
  | [] => needle.isEmpty
  | _ :: t => needle.isPrefixOf hay || containsSub needle t

/-- The context-line search of `_tier2_code`: the first line of the
raw text containing the formatted time, whitespace-insensitively. -/
def tier2Context (text : List Char) (time_str : String) : String :=
  match (splitNl text).find? (fun line =>
    containsSub (removeSpacesLower time_str.data) (removeSpacesLower line)) with
  | some line => ⟨line⟩
  | none => ""

/-- `Extractor._tier2_code`. -/
def tier2_code (template : ParishTemplate) (text : String) : Option (List MassTime) :=
  let day_time_map := parse_day_time_blockL text.data
  if day_time_map = [] then none
  else
    let total_times := (day_time_map.map fun m => m.2.length).sum
    let min_required := template.validation_rules.minMasses
    if total_times < min_required then none
    else
      let mass_times := day_time_map.flatMap fun (day, times) =>
        times.map fun time_str =>
          let context := tier2Context text.data time_str
          { day := day, time := time_str,
            mass_type := if context ≠ "" then detect_special_type context else "Regular",
            language := if context ≠ "" then detect_language context else "English" }
      if mass_times = [] then none else some mass_times

/-- `Extractor.extract`: the three-tier pipeline. -/
def extract (template : ParishTemplate) (fetched : Option (String × String))
    (apiKeyPresent : Bool) (dry_run : Bool) (fallback_model : String)
    (llm : Option (List MassTime) × ℚ) : ExtractionResult :=
  let source_url : String :=
    match template.web_template with
    | some wt => wt.url
    | none =>
      match template.pdf_template with
      | some pt => if pt.bulletin_page_url ≠ "" then pt.bulletin_page_url else ""
      | none => ""
  let result : ExtractionResult :=
    { parish_id := template.parish_id,
      source_type := sourceTypeOfStr template.source_type,
      source_url := source_url }
  match fetched with
  | none => { result with validation_status := .flagged, confidence := 0 }
  | some (text, content_hash) =>
    let result := { result with content_hash := content_hash }
    match tier1_static template text with
    | some times1 =>
      { result with times := times1, tier := .tier1_static, confidence := 1,
                    validation_status := .confirmed }
    | none =>
      match tier2_code template text with
      | some times2 =>
        { result with times := times2, tier := .tier2_code, confidence := 85/100,
                      validation_status := .confirmed }
      | none =>
        if apiKeyPresent ∧ ¬dry_run then
          match llm with
          | (some times3, cost) =>
            { result with times := times3, tier := .tier3_llm, confidence := 7/10,
                          validation_status := .provisional,
                          llm_model := some fallback_model, llm_cost_usd := cost }
          | (none, _) =>
            { result with validation_status := .flagged, confidence := 0 }
        else { result with validation_status := .flagged, confidence := 0 }

/-- An iCal result with full confidence, for the witness below. -/
def c2wit1 : ExtractionResult :=
  { parish_id := "p", times := [{ day := "Sunday", time := "10:00 AM" }],
    source_type := .ical_feed }

/-- A website result agreeing with `c2wit1`. -/
def c2wit2 : ExtractionResult :=
  { parish_id := "p", times := [{ day := "Sunday", time := "10:00 AM" }],
    source_type := .website_page }

/-- A website result with confidence 0.5 (see
`cross_reference_claim_counterexample`). -/
def c2web : ExtractionResult :=
  { parish_id := "p", times := [{ day := "Sunday", time := "10:00 AM" }],
    confidence := 1/2, source_type := .website_page }

/-- A PDF-bulletin result with confidence 0.9, same `(day,time)` set as
`c2web`. -/
def c2pdf : ExtractionResult :=
  { parish_id := "p", times := [{ day := "Sunday", time := "10:00 AM" }],
    confidence := 9/10, source_type := .pdf_bulletin }

/-- A lone provisional result for the singleton case of
`cross_reference_claim_counterexample`. -/
def c2solo : ExtractionResult :=
  { parish_id := "p", times := [{ day := "Sunday", time := "10:00 AM" }],
    confidence := 1/2, validation_status := .provisional }

/-- `extract` on a fetch failure (all other oracle outcomes are not
reached), keeping the default tier. -/
def c1Template : ParishTemplate := { parish_id := "p" }

/-- A template whose Tier 1 succeeds on indicator-free text, for the
witness below. -/
def c1WitTemplate : ParishTemplate :=
  { parish_id := "p", baseline_times := [("Sunday", ["10:00 AM"])] }

/-- The PDF-template condition of Tier 1: absent, or marked static. -/
def pdfStaticOk (t : ParishTemplate) : Prop :=
  match t.pdf_template with
  | some p => p.section_static = true
  | none => True

/-- The baseline `{"Sunday": []}` — a non-empty dict with no time
entries (see `extract_tier1_iff_counterexample`). -/
def c3CexTemplate : ParishTemplate :=
  { parish_id := "p", baseline_times := [("Sunday", [])] }

/-- The contribution of one raw line to day `d` in
`parse_day_time_block`: all the line's formatted times when the
stripped line is non-empty, mentions `d`, and has times; nothing
otherwise. -/
def lineContrib (d : String) (line : List Char) : List String :=
  let l := pyStrip line
  if l ≠ [] ∧ d ∈ find_daysL l ∧ find_timesL l ≠ [] then
    (find_timesL l).map ParsedTime.formatted
  else []


theorem valid_mk (h mn : ℕ) (per : String) (o : String)
    (h1 : 1 ≤ h) (h2 : h ≤ 12) (h3 : mn ≤ 59) (h4 : per = "AM" ∨ per = "PM") :
    (ParsedTime.mk h mn per o).Valid := ⟨h1, h2, h3, h4⟩

theorem parse_timeVia24_valid {s : List Char} {p : ParsedTime}
    (h : parse_timeVia24 s = some p) : p.Valid := by
  unfold parse_timeVia24 at h
  split at h
  · next hsearch =>
    split at h
    · next hb =>
      obtain ⟨-, h23, -, h59⟩ := hb
      split at h
      · cases h; exact valid_mk _ _ _ _ (by omega) (by omega) h59 (.inl rfl)
      · split at h
        · next h0 hlt =>
          cases h; exact valid_mk _ _ _ _ (by omega) (by omega) h59 (.inl rfl)
        · split at h
          · cases h; exact valid_mk _ _ _ _ (by omega) (by omega) h59 (.inr rfl)
          · next h0 h12 h12' =>
            cases h; exact valid_mk _ _ _ _ (by omega) (by omega) h59 (.inr rfl)
    · exact absurd h (by simp)
  · exact absurd h (by simp)

theorem mkParsed_valid {h mn : ℕ} {pm : Bool} {g : List Char}
    (h1 : 1 ≤ h) (h2 : h ≤ 12) (h3 : mn ≤ 59) : (mkParsed h mn pm g).Valid := by
  refine ⟨h1, h2, h3, ?_⟩
  cases pm <;> simp [mkParsed]

theorem parse_timeL_valid {s : List Char} {p : ParsedTime}
    (h : parse_timeL s = some p) : p.Valid := by
  unfold parse_timeL at h
  dsimp only at h
  have viaNM : ∀ {t : List Char}, parse_timeViaNM t = some p → p.Valid := by
    intro t ht
    unfold parse_timeViaNM at ht
    split at ht
    · next hsearch =>
      split at ht
      · next hb => cases ht; exact mkParsed_valid hb.1 hb.2 (by omega)
      · exact parse_timeVia24_valid ht
    · exact parse_timeVia24_valid ht
  split at h
  · next hsearch =>
    split at h
    · next hb => cases h; exact mkParsed_valid hb.1 hb.2.1 hb.2.2.2
    · exact viaNM h
  · exact viaNM h

/-- For valid parsed times the sort key determines the formatted
string (it decodes back into hour, minute and period). -/
theorem formatted_eq_of_sort_key_eq {p q : ParsedTime}
    (hp : p.Valid) (hq : q.Valid) (h : p.sort_key = q.sort_key) :
    p.formatted = q.formatted := by
  obtain ⟨hp1, hp2, hp3, hp4⟩ := hp
  obtain ⟨hq1, hq2, hq3, hq4⟩ := hq
  unfold ParsedTime.sort_key at h
  have hcomp : p.hour = q.hour ∧ p.minute = q.minute ∧ p.period = q.period := by
    by_cases hpp : p.period = "PM" <;> by_cases hqp : q.period = "PM"
    · rw [if_pos hpp, if_pos hqp] at h
      exact ⟨by omega, by omega, hpp.trans hqp.symm⟩
    · rw [if_pos hpp, if_neg hqp] at h
      exfalso; omega
    · rw [if_neg hpp, if_pos hqp] at h
      exfalso; omega
    · rw [if_neg hpp, if_neg hqp] at h
      exact ⟨by omega, by omega,
        (hp4.resolve_right hpp).trans (hq4.resolve_right hqp).symm⟩
  unfold ParsedTime.formatted
  rw [hcomp.1, hcomp.2.1, hcomp.2.2]

theorem collectTimes_mem {gs : List (List Char)} {seen : List String} {p : ParsedTime}
    (h : p ∈ collectTimes gs seen) : ∃ g ∈ gs, parse_timeL g = some p := by
  induction gs generalizing seen with
  | nil => simp [collectTimes] at h
  | cons g gs ih =>
    rw [collectTimes] at h
    split at h
    · next hp =>
      split at h
      · obtain ⟨g', hg', hpg'⟩ := ih h
        exact ⟨g', by simp [hg'], hpg'⟩
      · rcases List.mem_cons.mp h with rfl | h'
        · exact ⟨g, by simp, hp⟩
        · obtain ⟨g', hg', hpg'⟩ := ih h'
          exact ⟨g', by simp [hg'], hpg'⟩
    · obtain ⟨g', hg', hpg'⟩ := ih h
      exact ⟨g', by simp [hg'], hpg'⟩

theorem collectTimes_not_seen {gs : List (List Char)} {seen : List String} {p : ParsedTime}
    (h : p ∈ collectTimes gs seen) : p.formatted ∉ seen := by
  induction gs generalizing seen with
  | nil => simp [collectTimes] at h
  | cons g gs ih =>
    rw [collectTimes] at h
    split at h
    · next hp =>
      split at h
      · exact ih h
      · next hseen =>
        rcases List.mem_cons.mp h with rfl | h'
        · exact hseen
        · have := ih h'
          simp only [List.mem_cons, not_or] at this
          exact this.2
    · exact ih h

theorem collectTimes_nodup (gs : List (List Char)) (seen : List String) :
    (collectTimes gs seen).Pairwise fun a b => a.formatted ≠ b.formatted := by
  induction gs generalizing seen with
  | nil => simp [collectTimes]
  | cons g gs ih =>
    rw [collectTimes]
    split
    · split
      · exact ih _
      · refine List.pairwise_cons.mpr ⟨fun q hq => ?_, ih _⟩
        have := collectTimes_not_seen hq
        simp only [List.mem_cons, not_or] at this
        exact fun hc => this.1 hc.symm
    · exact ih _

/-- C6: for every string, `find_times` is strictly ascending in
`sort_key` and duplicate-free in `formatted`. -/
theorem find_times_sorted_nodup (s : String) :
    (find_times s).Pairwise (fun a b => a.sort_key < b.sort_key) ∧
    (find_times s).Pairwise (fun a b => a.formatted ≠ b.formatted) := by
  have hperm : List.Perm (find_timesL s.data) (collectTimes (timeMatchGroups s.data) []) :=
    List.perm_insertionSort ptLe _
  have hvalid : ∀ p ∈ find_timesL s.data, p.Valid := by
    intro p hp
    obtain ⟨g, -, hg⟩ := collectTimes_mem (hperm.mem_iff.mp hp)
    exact parse_timeL_valid hg
  have hsymm : Symmetric fun a b : ParsedTime => a.formatted ≠ b.formatted :=
    fun _ _ hab h => hab h.symm
  have hnodup : (find_timesL s.data).Pairwise fun a b => a.formatted ≠ b.formatted :=
    (hperm.pairwise_iff fun {_ _} h => hsymm h).mpr (collectTimes_nodup _ _)
  have hsorted : (find_timesL s.data).Pairwise ptLe :=
    List.sorted_insertionSort ptLe _
  refine ⟨?_, hnodup⟩
  have hand := hsorted.and hnodup
  refine hand.imp_of_mem ?_
  intro a b ha hb hab
  rcases Nat.lt_or_ge a.sort_key b.sort_key with hlt | hge
  · exact hlt
  · exact absurd (formatted_eq_of_sort_key_eq (hvalid a ha) (hvalid b hb)
      (Nat.le_antisymm hab.1 hge)) hab.2

/-! ## Theorems: validator and classifier claims -/

/-- C8: for canonical day names `a`, `b`, `expand_day_range a b`
returns a non-empty list starting with `a`, ending with `b`, of length
`((idx b - idx a) mod 7) + 1`, wrapping past Sunday when
`idx a > idx b`. -/
theorem expand_day_range_spec (a b : String)
    (ha : a ∈ DAYS_FULL) (hb : b ∈ DAYS_FULL) :
    expand_day_range a b ≠ [] ∧
    (expand_day_range a b).head? = some a ∧
    (expand_day_range a b).getLast? = some b ∧
    (expand_day_range a b).length =
      (((DAYS_FULL.indexOf b : ℤ) - (DAYS_FULL.indexOf a : ℤ)) % 7).toNat + 1 := by
  fin_cases ha <;> fin_cases hb <;> decide

/-- Witness for `expand_day_range_spec` at the wrapping pair
Friday → Monday. -/
theorem expand_day_range_spec_witness :
    "Friday" ∈ DAYS_FULL ∧ "Monday" ∈ DAYS_FULL ∧
    (expand_day_range "Friday" "Monday" ≠ [] ∧
      (expand_day_range "Friday" "Monday").head? = some "Friday" ∧
      (expand_day_range "Friday" "Monday").getLast? = some "Monday" ∧
      (expand_day_range "Friday" "Monday").length =
        (((DAYS_FULL.indexOf "Monday" : ℤ) - (DAYS_FULL.indexOf "Friday" : ℤ)) % 7).toNat + 1) :=
  ⟨by decide, by decide,
   expand_day_range_spec "Friday" "Monday" (by decide) (by decide)⟩

theorem allPairsSimilar_iff (ratio : String → String → ℚ) (l : List String) :
    allPairsSimilar ratio l = true ↔ l.Pairwise fun a b => 95/100 ≤ ratio a b := by
  induction l with
  | nil => simp [allPairsSimilar]
  | cons t rest ih =>
    simp only [allPairsSimilar, Bool.and_eq_true, List.all_eq_true, List.pairwise_cons, ih,
      Bool.not_eq_true', decide_eq_false_iff_not, not_lt]

/-- C9: `_classify_static_dynamic` returns `section_static = true` iff
fewer than two PDF issues are supplied or every unordered pair of the
(stripped) region texts has similarity ratio ≥ 0.95; a single issue
always yields `true`. -/
theorem classify_static_dynamic_spec {β : Type} (extractRegion : β → String)
    (ratio : String → String → ℚ) (pdfs : List β) :
    (classify_static_dynamic extractRegion ratio pdfs = true ↔
      pdfs.length < 2 ∨
        (pdfs.map fun b => pyStripS (extractRegion b)).Pairwise
          fun a b => 95/100 ≤ ratio a b) ∧
    (pdfs.length = 1 → classify_static_dynamic extractRegion ratio pdfs = true) := by
  constructor
  · unfold classify_static_dynamic
    split
    · next hlt => simp [hlt]
    · next hge =>
      rw [if_neg, allPairsSimilar_iff]
      · constructor
        · exact .inr
        · rintro (h | h)
          · exact absurd h hge
          · exact h
      · simp only [ne_eq, List.map_eq_nil_iff]
        rintro rfl
        exact hge (by simp)
  · intro h1
    unfold classify_static_dynamic
    rw [if_pos (by omega)]

/-- Witness for `classify_static_dynamic_spec` at a concrete
one-element input. -/
theorem classify_static_dynamic_spec_witness :
    classify_static_dynamic (β := String) id (fun _ _ => 0) ["issue one"] = true :=
  (classify_static_dynamic_spec (β := String) id (fun _ _ => 0) ["issue one"]).2 rfl

/-- C10: `validate_extraction` never increases confidence (for any
input result with the data-model invariant `0 ≤ confidence`). -/
theorem validate_extraction_confidence_mono (result : ExtractionResult)
    (rules : ValidationRules) (prev : Option (List MassTime))
    (h : 0 ≤ result.confidence) :
    (validate_extraction result rules prev).confidence ≤ result.confidence := by
  unfold validate_extraction
  split
  · simpa using h
  · dsimp only
    split <;> (try dsimp only) <;> split <;> (try split) <;>
      simp [min_le_left, le_refl]

/-- Witness for `validate_extraction_confidence_mono`. -/
theorem validate_extraction_confidence_mono_witness :
    (0:ℚ) ≤ ({ parish_id := "p" } : ExtractionResult).confidence ∧
    (validate_extraction { parish_id := "p" } {} none).confidence ≤
      ({ parish_id := "p" } : ExtractionResult).confidence :=
  ⟨by norm_num, validate_extraction_confidence_mono { parish_id := "p" } {} none (by norm_num)⟩

/-- C4: the issue → status mapping of `validate_extraction`: empty
times ⇒ flagged with confidence 0; no issues ⇒ confirmed, confidence
preserved; exactly one issue which is the Sunday-count discrepancy ⇒
provisional with confidence ≤ 0.7; any other non-empty issue set ⇒
flagged with confidence ≤ 0.3. -/
theorem validate_extraction_status_spec (result : ExtractionResult)
    (rules : ValidationRules) (prev : Option (List MassTime)) :
    (result.times = [] →
      (validate_extraction result rules prev).validation_status = .flagged ∧
      (validate_extraction result rules prev).confidence = 0) ∧
    (result.times ≠ [] → computeIssues result rules prev = [] →
      (validate_extraction result rules prev).validation_status = .confirmed ∧
      (validate_extraction result rules prev).confidence = result.confidence) ∧
    (result.times ≠ [] →
      (∃ c e, computeIssues result rules prev = [.sundayDiffers c e]) →
      (validate_extraction result rules prev).validation_status = .provisional ∧
      (validate_extraction result rules prev).confidence ≤ 7/10) ∧
    (result.times ≠ [] → computeIssues result rules prev ≠ [] →
      (∀ c e, computeIssues result rules prev ≠ [.sundayDiffers c e]) →
      (validate_extraction result rules prev).validation_status = .flagged ∧
      (validate_extraction result rules prev).confidence ≤ 3/10) := by
  refine ⟨fun he => ?_, fun hne hiss => ?_, fun hne hiss => ?_, fun hne hiss hnsd => ?_⟩
  · simp [validate_extraction, he]
  · simp [validate_extraction, hne, hiss]
  · obtain ⟨c, e, hceq⟩ := hiss
    simp [validate_extraction, hne, hceq, Issue.mentionsDiffers, min_le_right]
  · have hdisp : ¬((computeIssues result rules prev).length = 1 ∧
        ((computeIssues result rules prev).headI).mentionsDiffers = true) := by
      rintro ⟨hlen, hment⟩
      match hl : computeIssues result rules prev, hlen with
      | [i], _ =>
        rw [hl] at hment
        match i, hment with
        | .sundayDiffers c e, _ => exact hnsd c e hl
    simp only [validate_extraction, if_neg (by simpa using hne), hiss, if_neg hiss,
      if_pos hiss, ne_eq, not_false_iff, if_true, if_neg hdisp]
    simp [min_le_right]

theorem mem_crSorted {r : ExtractionResult} {results : List ExtractionResult} :
    r ∈ crSorted results ↔ r ∈ results := List.mem_insertionSort crLe

/-- C2 (amended): for at least two results that all share the identical
non-empty `(day, time)` set (each with the data-model invariant
`confidence ≤ 1`), `cross_reference` returns the sort-best result with
status `confirmed` and confidence boosted to
`min 1 (best.confidence + 0.1) ≥ best.confidence` — where `best` is the
first result in `(source_type_priority, -confidence)` order, whose
confidence can be below the maximum input confidence. -/
theorem cross_reference_agreement (results : List ExtractionResult)
    (T : Finset (String × String))
    (h2 : 2 ≤ results.length)
    (hT : ∀ r ∈ results, pairSet r.times = T)
    (hTne : T.Nonempty)
    (hconf : ∀ r ∈ results, r.confidence ≤ 1) :
    ∃ best rest, crSorted results = best :: rest ∧
      cross_reference results =
        some { best with confidence := min 1 (best.confidence + 1/10),
                         validation_status := .confirmed } ∧
      best.confidence ≤ min 1 (best.confidence + 1/10) := by
  match results, h2 with
  | a :: b :: l, _ =>
    have hlen : (crSorted (a :: b :: l)).length = l.length + 2 := by
      simpa [crSorted] using List.length_insertionSort crLe (a :: b :: l)
    match hs : crSorted (a :: b :: l), hlen with
    | s1 :: s2 :: rest, _ =>
      have hm1 : s1 ∈ a :: b :: l := mem_crSorted.mp (by rw [hs]; simp)
      have hm2 : s2 ∈ a :: b :: l := mem_crSorted.mp (by rw [hs]; simp)
      have h1T : pairSet s1.times = T := hT s1 hm1
      have h2T : pairSet s2.times = T := hT s2 hm2
      have hboost : crBoost s1 s2 =
          { s1 with confidence := min 1 (s1.confidence + 1/10),
                    validation_status := .confirmed } := by
        have hTcard : (0:ℚ) < T.card := by
          exact_mod_cast Finset.card_pos.mpr hTne
        have hratio : ((pairSet s1.times ∩ pairSet s2.times).card : ℚ) /
            (max (pairSet s1.times).card (pairSet s2.times).card : ℚ) = 1 := by
          rw [h1T, h2T, Finset.inter_self, max_self]
          exact div_self (by positivity)
        unfold crBoost
        rw [if_pos ⟨by rw [h1T]; exact hTne, by rw [h2T]; exact hTne⟩,
          if_pos (by rw [hratio]; norm_num)]
      refine ⟨s1, s2 :: rest, rfl, ?_, le_min (hconf s1 hm1) (by linarith)⟩
      show (match crSorted (a :: b :: l) with
        | [] => none
        | [best] => some best
        | best :: second :: _ => some (crBoost best second)) = _
      rw [hs]
      exact congrArg some hboost

/-- Witness for `cross_reference_agreement` at two concrete agreeing
results. -/
theorem cross_reference_agreement_witness :
    2 ≤ ([c2wit1, c2wit2] : List ExtractionResult).length ∧
    ∃ best rest, crSorted [c2wit1, c2wit2] = best :: rest ∧
      cross_reference [c2wit1, c2wit2] =
        some { best with confidence := min 1 (best.confidence + 1/10),
                         validation_status := .confirmed } ∧
      best.confidence ≤ min 1 (best.confidence + 1/10) :=
  ⟨by decide,
   cross_reference_agreement [c2wit1, c2wit2] (pairSet c2wit1.times) (by decide)
     (by decide) (by decide) (by decide)⟩

/-- Counterexample to C2 as stated: (i) with two sources sharing the
identical non-empty `(day,time)` set, the lower-priority source's higher
confidence 0.9 is not reflected — the returned confidence is 0.6 < 0.9
(sorting puts source priority before confidence and the boost is only
+0.1); (ii) a singleton list trivially has all results sharing one set,
but is returned unchanged, keeping status `provisional`, not
`confirmed`. -/
theorem cross_reference_claim_counterexample :
    (pairSet c2web.times = pairSet c2pdf.times ∧ c2pdf.confidence = 9/10 ∧
      (cross_reference [c2web, c2pdf]).map (fun r => r.confidence) = some (6/10) ∧
      ¬ ((9:ℚ)/10 ≤ 6/10)) ∧
    (cross_reference [c2solo] = some c2solo ∧
      c2solo.validation_status = .provisional) := by
  have hsort : crSorted [c2web, c2pdf] = [c2web, c2pdf] := by
    have : crLe c2web c2pdf := .inl (by norm_num [crPriority, c2web, c2pdf])
    simp [crSorted, List.insertionSort, List.orderedInsert, this]
  have hboost : crBoost c2web c2pdf =
      { c2web with confidence := min 1 (c2web.confidence + 1/10),
                   validation_status := .confirmed } := by
    unfold crBoost
    rw [if_pos ⟨by decide, by decide⟩, if_pos (by norm_num [c2web, c2pdf, pairSet])]
  have hcr : cross_reference [c2web, c2pdf] = some (crBoost c2web c2pdf) := by
    have hunfold : cross_reference [c2web, c2pdf] =
        (match crSorted [c2web, c2pdf] with
          | [] => none
          | [best] => some best
          | best :: second :: _ => some (crBoost best second) : Option ExtractionResult) :=
      rfl
    rw [hunfold, hsort]
  refine ⟨⟨rfl, rfl, ?_, by norm_num⟩, rfl, rfl⟩
  rw [hcr, hboost]
  show some (min 1 (c2web.confidence + 1/10)) = some (6/10)
  norm_num [c2web]

/-! ### Extractor claims -/

/-- C1 (amended): every result `extract` returns with `tier == 1` has
`confidence == 1.0` unless it is a failure result (fetch failure or
all-tiers-fail), which keeps the dataclass default `tier == 1` while
setting `validation_status = flagged` and `confidence = 0.0`. -/
theorem extract_tier1_confidence (template : ParishTemplate)
    (fetched : Option (String × String)) (apiKeyPresent dry_run : Bool)
    (fallback_model : String) (llm : Option (List MassTime) × ℚ)
    (h : (extract template fetched apiKeyPresent dry_run fallback_model llm).tier =
      .tier1_static) :
    (extract template fetched apiKeyPresent dry_run fallback_model llm).confidence = 1 ∨
    ((extract template fetched apiKeyPresent dry_run fallback_model llm).validation_status
        = .flagged ∧
      (extract template fetched apiKeyPresent dry_run fallback_model llm).confidence = 0) := by
  rcases fetched with - | ⟨text, hash⟩
  · exact .inr ⟨rfl, rfl⟩
  · unfold extract at h ⊢
    dsimp only at h ⊢
    revert h
    rcases tier1_static template text with - | times1 <;> dsimp only
    · rcases tier2_code template text with - | times2 <;> dsimp only
      · by_cases hk : apiKeyPresent = true ∧ ¬ dry_run = true
        · rw [if_pos hk]
          rcases llm with ⟨- | times3, cost⟩ <;> dsimp only
          · exact fun _ => .inr ⟨rfl, rfl⟩
          · exact fun h => absurd h (by simp)
        · rw [if_neg hk]
          exact fun _ => .inr ⟨rfl, rfl⟩
      · exact fun h => absurd h (by simp)
    · exact fun _ => .inl rfl

/-- Counterexample to C1 as stated: on fetch failure the returned
result keeps the dataclass default `tier == TIER1_STATIC` but has
`confidence == 0.0`, so `tier==1 ⇒ confidence==1.0` fails. -/
theorem extract_tier1_claim_counterexample :
    (extract c1Template none false false "m" (none, 0)).tier = .tier1_static ∧
    (extract c1Template none false false "m" (none, 0)).confidence = 0 ∧
    (0 : ℚ) ≠ 1 :=
  ⟨rfl, rfl, by norm_num⟩

/-- Witness for `extract_tier1_confidence` at a concrete Tier-1
success. -/
theorem extract_tier1_confidence_witness :
    (extract c1WitTemplate (some ("", "h")) false false "m" (none, 0)).tier =
      .tier1_static ∧
    ((extract c1WitTemplate (some ("", "h")) false false "m" (none, 0)).confidence = 1 ∨
      ((extract c1WitTemplate (some ("", "h")) false false "m"
          (none, 0)).validation_status = .flagged ∧
        (extract c1WitTemplate (some ("", "h")) false false "m" (none, 0)).confidence = 0)) :=
  ⟨rfl, extract_tier1_confidence c1WitTemplate (some ("", "h")) false false "m" (none, 0) rfl⟩

/-- C3 (amended): when the baseline contains at least one time entry
and any PDF template is marked static, Tier 1 applies: on text with no
change indicators, `extract` returns exactly the baseline as
`MassTime`s with tier 1, confidence 1.0, status confirmed; on text with
an indicator it escalates and never returns a tier-1 success; and when
the flattened baseline is empty or the PDF section is dynamic no tier-1
success is returned either. -/
theorem extract_tier1_spec (template : ParishTemplate) (text hash : String)
    (apiKeyPresent dry_run : Bool) (fallback_model : String)
    (llm : Option (List MassTime) × ℚ) :
    (flattenBaseline template.baseline_times ≠ [] → pdfStaticOk template →
      detect_change_indicators text = [] →
      (extract template (some (text, hash)) apiKeyPresent dry_run fallback_model llm).times
          = flattenBaseline template.baseline_times ∧
      (extract template (some (text, hash)) apiKeyPresent dry_run fallback_model llm).tier
          = .tier1_static ∧
      (extract template (some (text, hash)) apiKeyPresent dry_run fallback_model
          llm).confidence = 1 ∧
      (extract template (some (text, hash)) apiKeyPresent dry_run fallback_model
          llm).validation_status = .confirmed) ∧
    (detect_change_indicators text ≠ [] →
      ¬ ((extract template (some (text, hash)) apiKeyPresent dry_run fallback_model
            llm).tier = .tier1_static ∧
        (extract template (some (text, hash)) apiKeyPresent dry_run fallback_model
            llm).confidence = 1)) ∧
    (flattenBaseline template.baseline_times = [] ∨ ¬ pdfStaticOk template →
      ¬ ((extract template (some (text, hash)) apiKeyPresent dry_run fallback_model
            llm).tier = .tier1_static ∧
        (extract template (some (text, hash)) apiKeyPresent dry_run fallback_model
            llm).confidence = 1)) := by
  have hno1 : tier1_static template text = none →
      ¬ ((extract template (some (text, hash)) apiKeyPresent dry_run fallback_model
            llm).tier = .tier1_static ∧
        (extract template (some (text, hash)) apiKeyPresent dry_run fallback_model
            llm).confidence = 1) := by
    intro ht1
    unfold extract
    dsimp only
    rw [ht1]
    dsimp only
    rcases tier2_code template text with - | times2 <;> dsimp only
    · by_cases hk : apiKeyPresent = true ∧ ¬ dry_run = true
      · rw [if_pos hk]
        rcases llm with ⟨- | times3, cost⟩ <;> dsimp only
        · rintro ⟨-, hconf⟩
          exact absurd hconf (by norm_num)
        · rintro ⟨-, hconf⟩
          exact absurd hconf (by norm_num)
      · rw [if_neg hk]
        rintro ⟨-, hconf⟩
        exact absurd hconf (by norm_num)
    · rintro ⟨htier, -⟩
      exact absurd htier (by simp)
  refine ⟨fun hbase hpdf hind => ?_, fun hind => ?_, fun hbad => ?_⟩
  · have ht1 : tier1_static template text =
        some (flattenBaseline template.baseline_times) := by
      unfold tier1_static
      rw [if_neg, if_neg (by simpa using hind), if_neg, if_neg hbase]
      · unfold pdfStaticOk at hpdf
        match template.pdf_template, hpdf with
        | some p, hpdf => dsimp only at hpdf ⊢; simp [hpdf]
        | none, _ => dsimp only; simp
      · intro hempty
        exact hbase (by simp [hempty, flattenBaseline])
    unfold extract
    dsimp only
    rw [ht1]
    exact ⟨rfl, rfl, rfl, rfl⟩
  · refine hno1 ?_
    unfold tier1_static
    by_cases hb : template.baseline_times = []
    · rw [if_pos hb]
    · rw [if_neg hb, if_pos (show detect_change_indicators text ≠ [] by simpa using hind)]
  · refine hno1 ?_
    unfold tier1_static
    by_cases hb : template.baseline_times = []
    · rw [if_pos hb]
    · rw [if_neg hb]
      by_cases hi : detect_change_indicators text ≠ []
      · rw [if_pos hi]
      · rw [if_neg hi]
        rcases hbad with hflat | hdyn
        · by_cases hp : (match template.pdf_template with
              | some p => !p.section_static
              | none => false) = true
          · rw [if_pos hp]
          · rw [if_neg hp, if_pos hflat]
        · rw [if_pos ?_]
          unfold pdfStaticOk at hdyn
          match template.pdf_template, hdyn with
          | some p, hdyn => dsimp only at hdyn ⊢; simpa using hdyn
          | none, hdyn => exact absurd trivial hdyn

/-- Counterexample to C3 as stated: a template whose `baseline_times`
dict is non-empty (and has no PDF template) but all of whose per-day
lists are empty.  Tier 1 is applicable by the claim's side conditions,
the text has no change indicators, yet `extract` does not return a
tier-1 success: it falls through all tiers to `flagged` with
confidence 0 ≠ 1.0. -/
theorem extract_tier1_iff_counterexample :
    c3CexTemplate.baseline_times ≠ [] ∧
    c3CexTemplate.pdf_template = none ∧
    detect_change_indicators "" = [] ∧
    (extract c3CexTemplate (some ("", "h")) false false "m" (none, 0)).confidence = 0 ∧
    (extract c3CexTemplate (some ("", "h")) false false "m"
        (none, 0)).validation_status = .flagged ∧
    (0 : ℚ) ≠ 1 :=
  ⟨by decide, rfl, rfl, rfl, rfl, by norm_num⟩

/-- Witness for `extract_tier1_spec` at a concrete template with one
baseline time and indicator-free text. -/
theorem extract_tier1_spec_witness :
    flattenBaseline c1WitTemplate.baseline_times ≠ [] ∧
    pdfStaticOk c1WitTemplate ∧
    detect_change_indicators "Sunday Mass" = [] ∧
    (extract c1WitTemplate (some ("Sunday Mass", "h")) false false "m" (none, 0)).times
        = flattenBaseline c1WitTemplate.baseline_times ∧
    (extract c1WitTemplate (some ("Sunday Mass", "h")) false false "m" (none, 0)).tier
        = .tier1_static :=
  ⟨by decide, trivial, rfl,
   ((extract_tier1_spec c1WitTemplate "Sunday Mass" "h" false false "m" (none, 0)).1
      (by decide) trivial rfl).1,
   ((extract_tier1_spec c1WitTemplate "Sunday Mass" "h" false false "m" (none, 0)).1
      (by decide) trivial rfl).2.1⟩

/-! ### `parse_day_time_block` (C7) -/

theorem lookup_dictAppend (d k : String) (v : List String)
    (m : List (String × List String)) :
    List.lookup d (dictAppend m k v) =
      if d = k then some ((List.lookup d m).getD [] ++ v) else List.lookup d m := by
  induction m with
  | nil =>
    by_cases h : d = k
    · simp [dictAppend, List.lookup, h]
    · simp [dictAppend, List.lookup, beq_false_of_ne h, h]
  | cons kv rest ih =>
    obtain ⟨k', v'⟩ := kv
    rw [dictAppend]
    by_cases hk : k' = k
    · subst hk
      by_cases hd : d = k'
      · subst hd
        simp [List.lookup]
      · simp [List.lookup, beq_false_of_ne hd, hd]
    · rw [if_neg hk]
      by_cases hd : d = k'
      · subst hd
        simp [List.lookup, if_neg hk]
      · simp only [List.lookup, beq_false_of_ne hd, ih]

theorem lookup_foldl_dictAppend (d : String) (ts : List String)
    (days : List String) (m : List (String × List String)) (hnd : days.Nodup) :
    List.lookup d (days.foldl (fun res day => dictAppend res day ts) m) =
      if d ∈ days then some ((List.lookup d m).getD [] ++ ts)
      else List.lookup d m := by
  induction days generalizing m with
  | nil => simp
  | cons day rest ih =>
    rw [List.foldl_cons]
    rw [ih (dictAppend m day ts) (List.nodup_cons.mp hnd).2]
    by_cases hd : d = day
    · subst hd
      have hnm : d ∉ rest := (List.nodup_cons.mp hnd).1
      rw [if_neg hnm, if_pos (List.mem_cons_self d rest), lookup_dictAppend,
        if_pos rfl]
    · rw [lookup_dictAppend, if_neg hd]
      by_cases hr : d ∈ rest
      · rw [if_pos hr, if_pos (List.mem_cons_of_mem day hr)]
      · rw [if_neg hr, if_neg (by simp [hd, hr])]

theorem addDays_nodup (new : List String) (acc : List String) (h : acc.Nodup) :
    (addDays acc new).Nodup := by
  induction new generalizing acc with
  | nil => exact h
  | cons x xs ih =>
    rw [addDays]
    refine ih _ ?_
    by_cases hx : x ∈ acc
    · rwa [if_pos hx]
    · rw [if_neg hx]
      exact h.append (List.nodup_singleton x)
        (fun a ha hb => hx (by simpa using (List.mem_singleton.mp hb) ▸ ha))

theorem find_daysL_nodup (l : List Char) : (find_daysL l).Nodup := by
  unfold find_daysL
  dsimp only
  apply addDays_nodup
  apply addDays_nodup
  split
  · apply addDays_nodup
    split
    · apply addDays_nodup
      apply addDays_nodup
      exact List.nodup_nil
    · apply addDays_nodup
      exact List.nodup_nil
  · split
    · apply addDays_nodup
      apply addDays_nodup
      exact List.nodup_nil
    · apply addDays_nodup
      exact List.nodup_nil

theorem parse_block_foldl (d : String) (lines : List (List Char)) :
    ∀ m : List (String × List String),
    List.lookup d (lines.foldl (fun result line =>
      let l := pyStrip line
      if l = [] then result
      else
        let days := find_daysL l
        let times := find_timesL l
        if days ≠ [] ∧ times ≠ [] then
          let time_strs := times.map ParsedTime.formatted
          days.foldl (fun res day => dictAppend res day time_strs) result
        else result) m) =
      (if (lines.map (lineContrib d)).flatten = [] then List.lookup d m
       else some ((List.lookup d m).getD [] ++ (lines.map (lineContrib d)).flatten)) := by
  induction lines with
  | nil => simp
  | cons line rest ih =>
    intro m
    rw [List.foldl_cons, List.map_cons, List.flatten_cons]
    by_cases hl : pyStrip line = []
    · have hc : lineContrib d line = [] := by
        unfold lineContrib
        rw [if_neg (by simp [hl])]
      rw [ih]
      simp only [hl, if_pos rfl, hc, List.nil_append]
      split <;> rfl
    · by_cases hdt : find_daysL (pyStrip line) ≠ [] ∧ find_timesL (pyStrip line) ≠ []
      · simp only [if_neg hl, if_pos hdt]
        by_cases hd : d ∈ find_daysL (pyStrip line)
        · have hc : lineContrib d line =
              (find_timesL (pyStrip line)).map ParsedTime.formatted := by
            unfold lineContrib
            rw [if_pos ⟨hl, hd, hdt.2⟩]
          have hts : (find_timesL (pyStrip line)).map ParsedTime.formatted ≠ [] := by
            simpa using hdt.2
          rw [ih, lookup_foldl_dictAppend d _ _ m (find_daysL_nodup _), if_pos hd, hc]
          split
          · next hrest =>
            rw [if_neg (by simp [hts]), hrest]
            simp
          · next hrest =>
            rw [if_neg (by simp [hts])]
            simp
        · have hc : lineContrib d line = [] := by
            unfold lineContrib
            rw [if_neg (by simp [hd])]
          rw [ih, lookup_foldl_dictAppend d _ _ m (find_daysL_nodup _), if_neg hd, hc]
          simp only [List.nil_append]
      · have hc : lineContrib d line = [] := by
          unfold lineContrib
          rw [if_neg]
          rintro ⟨-, hmem, hts⟩
          rcases not_and_or.mp hdt with h1 | h2
          · simp only [ne_eq, not_not] at h1
            rw [h1] at hmem
            exact absurd hmem (List.not_mem_nil d)
          · simp only [ne_eq, not_not] at h2
            exact hts h2
        simp only [if_neg hl, if_neg hdt, hc, List.nil_append]
        rw [ih]

/-- C7: `parse_day_time_block` processes lines independently — for
every day `d`, its entry (when present) is exactly the concatenation,
in line order, of the full formatted-time lists of those lines whose
stripped text is non-empty and on which `find_days` mentions `d` and
`find_times` is non-empty (no dedup inside a line); days on lines with
no times, and times on lines with no days, create no entries. -/
theorem parse_day_time_block_spec (text : String) (d : String) :
    List.lookup d (parse_day_time_block text) =
      (if ((splitNl (pyStrip text.data)).map (lineContrib d)).flatten = [] then none
       else some (((splitNl (pyStrip text.data)).map (lineContrib d)).flatten)) := by
  unfold parse_day_time_block parse_day_time_blockL
  rw [parse_block_foldl]
  split <;> simp

/-- Witness for `validate_extraction_status_spec`: the no-issues branch
at a concrete nine-mass result. -/
theorem validate_extraction_status_spec_witness :
    (let r : ExtractionResult :=
      { parish_id := "p", confidence := 85/100,
        times := (List.replicate 3 ({ day := "Sunday", time := "8:00 AM" } : MassTime)) ++
          List.replicate 5 { day := "Monday", time := "9:15 AM" } };
    r.times ≠ [] ∧ computeIssues r {} none = [] ∧
      (validate_extraction r {} none).validation_status = .confirmed ∧
      (validate_extraction r {} none).confidence = r.confidence) := by
  refine ⟨by decide, by decide, ?_⟩
  exact (validate_extraction_status_spec _ {} none).2.1 (by decide) (by decide)

/-! ### Round-trip of `parse_time` through `ParsedTime.original` (C5)

The proof follows the match structure: a successful `parse_time`
records as `original` the `group(0)` of the internal match; re-running
`parse_time` on that slice reproduces the same match at position 0 (the
slice is whitespace-free, the look-arounds hold trivially at its
edges, and no earlier pattern can match inside it). -/

theorem space_not_digit {c : Char} (h : pyIsSpace c = true) : pyIsDigit c = false := by
  simp only [pyIsSpace, Bool.or_eq_true, decide_eq_true_eq] at h
  rcases h with ((((h | h) | h) | h) | h) | h <;> subst h <;> decide

theorem ap_not_digit {c : Char} (h : isAP c = true) : pyIsDigit c = false := by
  simp only [isAP, Bool.or_eq_true, decide_eq_true_eq] at h
  rcases h with ((h | h) | h) | h <;> subst h <;> decide

theorem ap_not_space {c : Char} (h : isAP c = true) : pyIsSpace c = false := by
  simp only [isAP, Bool.or_eq_true, decide_eq_true_eq] at h
  rcases h with ((h | h) | h) | h <;> subst h <;> decide

theorem ap_not_sep {c : Char} (h : isAP c = true) : isSep c = false := by
  simp only [isAP, Bool.or_eq_true, decide_eq_true_eq] at h
  rcases h with ((h | h) | h) | h <;> subst h <;> decide

theorem m_not_digit {c : Char} (h : isM c = true) : pyIsDigit c = false := by
  simp only [isM, Bool.or_eq_true, decide_eq_true_eq] at h
  rcases h with h | h <;> subst h <;> decide

theorem m_not_space {c : Char} (h : isM c = true) : pyIsSpace c = false := by
  simp only [isM, Bool.or_eq_true, decide_eq_true_eq] at h
  rcases h with h | h <;> subst h <;> decide

theorem digit_not_space {c : Char} (h : pyIsDigit c = true) : pyIsSpace c = false := by
  cases hsp : pyIsSpace c
  · rfl
  · rw [space_not_digit hsp] at h
    exact absurd h (by simp)

theorem munch_append (p : Char → Bool) (l : List Char) :
    (munch p l).1 ++ (munch p l).2 = l := by
  induction l with
  | nil => rfl
  | cons c t ih =>
    rw [munch]
    by_cases h : p c = true
    · rw [if_pos h]
      simpa using ih
    · rw [if_neg h]
      rfl

theorem munch_all (p : Char → Bool) (l : List Char) :
    ∀ c ∈ (munch p l).1, p c = true := by
  induction l with
  | nil => intro c hc; simp [munch] at hc
  | cons c t ih =>
    rw [munch]
    by_cases h : p c = true
    · rw [if_pos h]
      intro d hd
      rcases List.mem_cons.mp (by simpa using hd) with rfl | hd'
      · exact h
      · exact ih d hd'
    · rw [if_neg h]
      intro d hd
      simp at hd

theorem munch_head (p : Char → Bool) (l : List Char) :
    ∀ c, (munch p l).2.head? = some c → p c = false := by
  induction l with
  | nil => intro c hc; simp [munch] at hc
  | cons c t ih =>
    rw [munch]
    by_cases h : p c = true
    · rw [if_pos h]
      simpa using ih
    · rw [if_neg h]
      intro d hd
      simp only [List.head?_cons, Option.some.injEq] at hd
      subst hd
      simpa using h

theorem munch_of (p : Char → Bool) (w r : List Char)
    (hw : ∀ c ∈ w, p c = true) (hr : ∀ c, r.head? = some c → p c = false) :
    munch p (w ++ r) = (w, r) := by
  induction w with
  | nil =>
    cases r with
    | nil => rfl
    | cons c t =>
      rw [List.nil_append, munch, if_neg]
      simp [hr c rfl]
  | cons c w' ih =>
    rw [List.cons_append, munch, if_pos (hw c (by simp)),
      ih (fun d hd => hw d (by simp [hd]))]

theorem dropWhile_eq_self_of (p : Char → Bool) (l : List Char)
    (h : ∀ c, l.head? = some c → p c = false) : l.dropWhile p = l := by
  cases l with
  | nil => rfl
  | cons c t =>
    rw [List.dropWhile_cons, if_neg]
    simp [h c rfl]

theorem pyStrip_eq_self (l : List Char)
    (hh : ∀ c, l.head? = some c → pyIsSpace c = false)
    (hl : ∀ c, l.getLast? = some c → pyIsSpace c = false) : pyStrip l = l := by
  unfold pyStrip
  rw [dropWhile_eq_self_of _ _ hh, dropWhile_eq_self_of _ _ (by simpa using hl),
    List.reverse_reverse]

theorem matchMDot_spec {k : List Char → Bool} {s g rest : List Char}
    (h : matchMDot k s = some (g, rest)) :
    s = g ++ rest ∧
    ∃ m, isM m = true ∧ (g = [m] ∨ g = [m, '.']) ∧
      (k [] = true → matchMDot k g = some (g, [])) := by
  match s with
  | [] => simp [matchMDot] at h
  | m :: s1 =>
    rw [matchMDot.eq_def] at h
    dsimp only at h
    by_cases hm : isM m = true
    case neg => rw [if_neg hm] at h; simp at h
    rw [if_pos hm] at h
    match s1 with
    | [] =>
      dsimp only at h
      by_cases hk : k [] = true
      · rw [if_pos hk] at h
        simp only [Option.some.injEq, Prod.mk.injEq] at h
        obtain ⟨rfl, rfl⟩ := h
        refine ⟨by simp, m, hm, .inl rfl, fun hk0 => ?_⟩
        rw [matchMDot.eq_def]
        dsimp only
        rw [if_pos hm, if_pos hk0]
      · rw [if_neg hk] at h; simp at h
    | c :: s2 =>
      dsimp only at h
      by_cases hc : c = '.'
      · subst hc
        rw [if_pos rfl] at h
        by_cases hk2 : k s2 = true
        · rw [if_pos hk2] at h
          simp only [Option.some.injEq, Prod.mk.injEq] at h
          obtain ⟨rfl, rfl⟩ := h
          refine ⟨by simp, m, hm, .inr rfl, fun hk0 => ?_⟩
          rw [matchMDot.eq_def]
          dsimp only
          rw [if_pos hm, if_pos rfl, if_pos hk0]
        · rw [if_neg hk2] at h
          by_cases hk1 : k ('.' :: s2) = true
          · rw [if_pos hk1] at h
            simp only [Option.some.injEq, Prod.mk.injEq] at h
            obtain ⟨rfl, rfl⟩ := h
            refine ⟨by simp, m, hm, .inl rfl, fun hk0 => ?_⟩
            rw [matchMDot.eq_def]
            dsimp only
            rw [if_pos hm, if_pos hk0]
          · rw [if_neg hk1] at h; simp at h
      · rw [if_neg hc] at h
        by_cases hk1 : k (c :: s2) = true
        · rw [if_pos hk1] at h
          simp only [Option.some.injEq, Prod.mk.injEq] at h
          obtain ⟨rfl, rfl⟩ := h
          refine ⟨by simp, m, hm, .inl rfl, fun hk0 => ?_⟩
          rw [matchMDot.eq_def]
          dsimp only
          rw [if_pos hm, if_pos hk0]
        · rw [if_neg hk1] at h; simp at h

theorem space_not_m {c : Char} (h : pyIsSpace c = true) : isM c = false := by
  cases hm : isM c
  · rfl
  · rw [m_not_space hm] at h
    exact absurd h (by simp)

theorem matchSpM_spec {k : List Char → Bool} {s g rest : List Char}
    (h : matchSpM k s = some (g, rest)) :
    s = g ++ rest ∧ g ≠ [] ∧
    (∀ c ∈ g, pyIsDigit c = false) ∧
    (∀ c, g.getLast? = some c → pyIsSpace c = false) ∧
    (k [] = true → matchSpM k g = some (g, [])) := by
  match s with
  | [] => simp [matchSpM] at h
  | c :: s2 =>
    rw [matchSpM] at h
    by_cases hsp : pyIsSpace c = true
    · rw [if_pos hsp] at h
      match hmd : matchMDot k s2 with
      | some (g2, r2) =>
        rw [hmd] at h
        simp only [Option.some.injEq, Prod.mk.injEq] at h
        obtain ⟨rfl, rfl⟩ := h
        obtain ⟨rfl, m, hm, hg2, hrepro⟩ := matchMDot_spec hmd
        refine ⟨rfl, by simp, fun d hd => ?_, fun d hd => ?_, fun hk0 => ?_⟩
        · rcases List.mem_cons.mp hd with rfl | hd'
          · exact space_not_digit hsp
          · rcases hg2 with rfl | rfl
            · rcases List.mem_singleton.mp hd' with rfl
              exact m_not_digit hm
            · rcases List.mem_cons.mp hd' with rfl | hd''
              · exact m_not_digit hm
              · rcases List.mem_singleton.mp hd'' with rfl
                decide
        · rcases hg2 with rfl | rfl
          · simp only [List.getLast?_cons_cons, List.getLast?_singleton,
              Option.some.injEq] at hd
            exact hd ▸ m_not_space hm
          · simp only [List.getLast?_cons_cons, List.getLast?_singleton,
              Option.some.injEq] at hd
            subst hd
            decide
        · rw [matchSpM, if_pos hsp, hrepro hk0]
      | none =>
        rw [hmd] at h
        rw [matchMDot.eq_def] at h
        dsimp only at h
        rw [if_neg (by simp [space_not_m hsp])] at h
        simp at h
    · rw [if_neg hsp] at h
      obtain ⟨hs, m, hm, hg, hrepro⟩ := matchMDot_spec h
      have hgm : ∃ t, g = m :: t := by rcases hg with rfl | rfl <;> exact ⟨_, rfl⟩
      obtain ⟨t, hgt⟩ := hgm
      refine ⟨hs, by simp [hgt], fun d hd => ?_, fun d hd => ?_, fun hk0 => ?_⟩
      · rcases hg with rfl | rfl
        · rcases List.mem_singleton.mp hd with rfl
          exact m_not_digit hm
        · rcases List.mem_cons.mp hd with rfl | hd'
          · exact m_not_digit hm
          · rcases List.mem_singleton.mp hd' with rfl
            decide
      · rcases hg with rfl | rfl
        · simp only [List.getLast?_singleton, Option.some.injEq] at hd
          exact hd ▸ m_not_space hm
        · simp only [List.getLast?_cons_cons, List.getLast?_singleton,
            Option.some.injEq] at hd
          subst hd
          decide
      · rw [hgt, matchSpM, if_neg (by simp [m_not_space hm]), ← hgt]
        exact hrepro hk0

theorem getLast?_append_right {α : Type} {l₁ l₂ : List α} (h : l₂ ≠ []) :
    (l₁ ++ l₂).getLast? = l₂.getLast? := by
  rw [List.getLast?_append]
  cases hl : l₂.getLast? with
  | none => exact absurd (List.getLast?_eq_none_iff.mp hl) h
  | some y => rfl

theorem matchAmPmTail_spec {k : List Char → Bool} {s : List Char} {pm : Bool}
    {gt rest : List Char} (h : matchAmPmTail k s = some (pm, gt, rest)) :
    s = gt ++ rest ∧
    (∃ c g2, gt = c :: g2 ∧ isAP c = true ∧ pm = isPMletter c) ∧
    (∀ d ∈ gt, pyIsDigit d = false) ∧
    (∀ d, gt.getLast? = some d → pyIsSpace d = false) ∧
    (k [] = true → matchAmPmTail k gt = some (pm, gt, [])) := by
  match s with
  | [] => simp [matchAmPmTail] at h
  | c :: s1 =>
    rw [matchAmPmTail.eq_def] at h
    dsimp only at h
    by_cases hap : isAP c = true
    case neg => rw [if_neg hap] at h; simp at h
    rw [if_pos hap] at h
    match s1 with
    | [] =>
      dsimp only at h
      simp [matchSpM] at h
    | d :: s2 =>
      dsimp only at h
      by_cases hd : d = '.'
      · subst hd
        rw [if_pos rfl] at h
        match hms : matchSpM k s2 with
        | some (g2, r2) =>
          rw [hms] at h
          dsimp only at h
          simp only [Option.some.injEq, Prod.mk.injEq] at h
          obtain ⟨rfl, rfl, rfl⟩ := h
          obtain ⟨hs, hne, hdig, hlast, hrepro⟩ := matchSpM_spec hms
          refine ⟨by simp [hs], ⟨c, _, rfl, hap, rfl⟩, fun e he => ?_, fun e he => ?_,
            fun hk0 => ?_⟩
          · rcases List.mem_cons.mp he with rfl | he'
            · exact ap_not_digit hap
            · rcases List.mem_cons.mp he' with rfl | he''
              · decide
              · exact hdig e he''
          · rw [show c :: '.' :: g2 = [c, '.'] ++ g2 from rfl,
              getLast?_append_right hne] at he
            exact hlast e he
          · rw [matchAmPmTail.eq_def]
            dsimp only
            rw [if_pos hap, if_pos rfl, hrepro hk0]
        | none =>
          rw [hms] at h
          rw [matchSpM] at h
          rw [if_neg (by decide)] at h
          rw [matchMDot.eq_def] at h
          dsimp only at h
          rw [if_neg (by decide)] at h
          simp at h
      · rw [if_neg hd] at h
        match hms : matchSpM k (d :: s2) with
        | some (g2, r2) =>
          rw [hms] at h
          dsimp only at h
          simp only [Option.some.injEq, Prod.mk.injEq] at h
          obtain ⟨rfl, rfl, rfl⟩ := h
          obtain ⟨hs, hne, hdig, hlast, hrepro⟩ := matchSpM_spec hms
          obtain ⟨d', t, rfl⟩ := List.exists_cons_of_ne_nil hne
          have hdd : d' = d := by
            rw [List.cons_append] at hs
            exact (List.cons.injEq _ _ _ _ ▸ hs : _ ∧ _).1.symm
          subst hdd
          refine ⟨by rw [List.cons_append, ← hs], ⟨c, _, rfl, hap, rfl⟩,
            fun e he => ?_, fun e he => ?_, fun hk0 => ?_⟩
          · rcases List.mem_cons.mp he with rfl | he'
            · exact ap_not_digit hap
            · exact hdig e he'
          · rw [show c :: d' :: t = [c] ++ (d' :: t) from rfl,
              getLast?_append_right (by simp)] at he
            exact hlast e he
          · rw [matchAmPmTail.eq_def]
            dsimp only
            rw [if_pos hap, if_neg hd, hrepro hk0]
        | none =>
          rw [hms] at h
          simp at h

theorem twoDigits_spec {s : List Char} {mn : ℕ} {g rest : List Char}
    (h : twoDigits s = some (mn, g, rest)) :
    ∃ m1 m2, g = [m1, m2] ∧ s = m1 :: m2 :: rest ∧
      pyIsDigit m1 = true ∧ pyIsDigit m2 = true ∧
      mn = 10 * digitVal m1 + digitVal m2 := by
  match s with
  | [] => simp [twoDigits] at h
  | [m1] => simp [twoDigits] at h
  | m1 :: m2 :: t =>
    rw [twoDigits] at h
    by_cases hdig : pyIsDigit m1 && pyIsDigit m2
    · rw [if_pos hdig] at h
      simp only [Option.some.injEq, Prod.mk.injEq] at h
      obtain ⟨rfl, rfl, rfl⟩ := h
      simp only [Bool.and_eq_true] at hdig
      exact ⟨m1, m2, rfl, rfl, hdig.1, hdig.2, rfl⟩
    · rw [if_neg hdig] at h
      simp at h

theorem twoDigits_eval {m1 m2 : Char} (r : List Char)
    (h1 : pyIsDigit m1 = true) (h2 : pyIsDigit m2 = true) :
    twoDigits (m1 :: m2 :: r) = some (10 * digitVal m1 + digitVal m2, [m1, m2], r) := by
  rw [twoDigits, if_pos (by simp [h1, h2])]

theorem cdAfterHour_sep {h0 : ℕ} {hd s1 : List Char} {x : (ℕ × ℕ × Bool) × List Char × List Char}
    (h : cdAfterHour h0 hd s1 = some x) :
    ∃ sep t, s1 = sep :: t ∧ isSep sep = true := by
  match s1 with
  | [] => simp [cdAfterHour] at h
  | sep :: t =>
    by_cases hs : isSep sep = true
    · exact ⟨sep, t, rfl, hs⟩
    · rw [cdAfterHour.eq_def] at h
      dsimp only at h
      rw [if_neg hs] at h
      simp at h

theorem spMin_spec {s2 gmin : List Char} {mn : ℕ} {s4 : List Char}
    (h : spMin s2 = some (gmin, mn, s4)) :
    s2 = gmin ++ s4 ∧ gmin ≠ [] ∧ (∀ r', spMin (gmin ++ r') = some (gmin, mn, r')) := by
  match s2 with
  | [] => simp [spMin] at h
  | c :: s3 =>
    rw [spMin] at h
    by_cases hsp : pyIsSpace c = true
    · rw [if_pos hsp] at h
      match htd : twoDigits s3 with
      | some (mn', g', r') =>
        rw [htd] at h
        simp only [Option.some.injEq, Prod.mk.injEq] at h
        obtain ⟨rfl, rfl, rfl⟩ := h
        obtain ⟨m1, m2, rfl, rfl, hd1, hd2, rfl⟩ := twoDigits_spec htd
        refine ⟨rfl, by simp, fun r' => ?_⟩
        simp only [List.cons_append, List.nil_append]
        rw [spMin, if_pos hsp, twoDigits_eval r' hd1 hd2]
      | none =>
        rw [htd] at h
        match htd2 : twoDigits (c :: s3) with
        | some (mn', g', r') =>
          obtain ⟨m1, m2, -, hcs, hd1, -, -⟩ := twoDigits_spec htd2
          have : pyIsSpace m1 = true := by
            rw [show m1 = c from (List.cons.injEq _ _ _ _ ▸ hcs : _ ∧ _).1.symm]
            exact hsp
          rw [digit_not_space hd1] at this
          exact absurd this (by simp)
        | none => rw [htd2] at h; simp at h
    · rw [if_neg hsp] at h
      match htd : twoDigits (c :: s3) with
      | some (mn', g', r') =>
        rw [htd] at h
        simp only [Option.map_some, Option.some.injEq, Prod.mk.injEq] at h
        obtain ⟨rfl, rfl, rfl⟩ := h
        obtain ⟨m1, m2, rfl, hcs, hd1, hd2, rfl⟩ := twoDigits_spec htd
        obtain ⟨rfl, rfl⟩ : c = m1 ∧ s3 = m2 :: r' := by
          have := List.cons.injEq c s3 m1 (m2 :: r') ▸ hcs
          exact ⟨this.1, this.2⟩
        refine ⟨rfl, by simp, fun r' => ?_⟩
        simp only [List.cons_append, List.nil_append]
        rw [spMin, if_neg hsp, twoDigits_eval r' hd1 hd2]
        rfl
      | none => rw [htd] at h; simp at h

theorem cdAfterHour_spec {h0 : ℕ} {hd s1 : List Char} {pay : ℕ × ℕ × Bool}
    {g rest : List Char}
    (h : cdAfterHour h0 hd s1 = some (pay, g, rest)) :
    ∃ mid, s1 = mid ++ rest ∧ g = hd ++ mid ∧ mid ≠ [] ∧
      (∀ d, mid.getLast? = some d → pyIsSpace d = false) ∧
      cdAfterHour h0 hd mid = some (pay, hd ++ mid, []) := by
  match s1 with
  | [] => simp [cdAfterHour] at h
  | sep :: s2 =>
    rw [cdAfterHour.eq_def] at h
    dsimp only at h
    by_cases hsep : isSep sep = true
    case neg => rw [if_neg hsep] at h; simp at h
    rw [if_pos hsep] at h
    match hm : spMin s2 with
    | none => rw [hm] at h; simp at h
    | some (gmin, mn, s4) =>
      rw [hm] at h
      dsimp only at h
      obtain ⟨hs2, hgne, hreplay⟩ := spMin_spec hm
      rcases hmu : munch pyIsSpace s4 with ⟨w2, s5⟩
      rw [hmu] at h
      dsimp only at h
      match hat : matchAmPmTail (fun _ => true) s5 with
      | some (pm', gt, rest') =>
        rw [hat] at h
        simp only [Option.some.injEq, Prod.mk.injEq] at h
        obtain ⟨rfl, rfl, rfl⟩ := h
        obtain ⟨hs5, ⟨capc, g2, rfl, hap, -⟩, -, hgtlast, hgtrepro⟩ := matchAmPmTail_spec hat
        have hw2 : ∀ c ∈ w2, pyIsSpace c = true := by
          have := munch_all pyIsSpace s4
          rw [hmu] at this
          exact this
        have hs4 : s4 = w2 ++ (capc :: g2) ++ rest' := by
          have := munch_append pyIsSpace s4
          rw [hmu] at this
          rw [← this, hs5]
          simp
        refine ⟨sep :: (gmin ++ w2 ++ (capc :: g2)), ?_, rfl, by simp, ?_, ?_⟩
        · rw [hs2, hs4]
          simp
        · intro d hdl
          rw [show sep :: (gmin ++ w2 ++ (capc :: g2)) =
              (sep :: (gmin ++ w2)) ++ (capc :: g2) from by simp,
            getLast?_append_right (by simp)] at hdl
          exact hgtlast d hdl
        · rw [cdAfterHour.eq_def]
          dsimp only
          rw [if_pos hsep]
          rw [show gmin ++ w2 ++ (capc :: g2) = gmin ++ (w2 ++ (capc :: g2)) from by simp]
          rw [hreplay (w2 ++ (capc :: g2))]
          dsimp only
          rw [munch_of pyIsSpace w2 (capc :: g2) hw2
            (fun c hc => by
              simp only [List.head?_cons, Option.some.injEq] at hc
              exact hc ▸ ap_not_space hap)]
          dsimp only
          rw [hgtrepro rfl]
          simp
      | none => rw [hat] at h; simp at h

theorem matchMDot_some_of_isM {m : Char} (t : List Char) (hm : isM m = true) :
    ∃ g r', matchMDot (fun _ => true) (m :: t) = some (g, r') := by
  match t with
  | [] =>
    refine ⟨[m], [], ?_⟩
    rw [matchMDot.eq_def]
    dsimp only
    rw [if_pos hm]
    simp
  | c :: t2 =>
    by_cases hc : c = '.'
    · subst hc
      refine ⟨[m, '.'], t2, ?_⟩
      rw [matchMDot.eq_def]
      dsimp only
      rw [if_pos hm]
      simp
    · refine ⟨[m], c :: t2, ?_⟩
      rw [matchMDot.eq_def]
      dsimp only
      rw [if_pos hm]
      simp [hc]

theorem matchMDot_isM_head {k : List Char → Bool} {c : Char} {s2 : List Char}
    {x : List Char × List Char} (h : matchMDot k (c :: s2) = some x) :
    isM c = true := by
  by_cases hm : isM c = true
  · exact hm
  · rw [matchMDot.eq_def] at h
    dsimp only at h
    rw [if_neg hm] at h
    simp at h

theorem matchSpM_ext {s : List Char} (r : List Char) {x : List Char × List Char}
    (h : matchSpM (fun _ => true) s = some x) :
    ∃ y, matchSpM (fun _ => true) (s ++ r) = some y := by
  match s with
  | [] => simp [matchSpM] at h
  | c :: s2 =>
    rw [matchSpM.eq_def] at h
    dsimp only at h
    by_cases hsp : pyIsSpace c = true
    · rw [if_pos hsp] at h
      match hmd : matchMDot (fun _ => true) s2 with
      | some (g0, r0) =>
        match s2, hmd with
        | m :: s3, hmd =>
          have hm : isM m = true := matchMDot_isM_head hmd
          obtain ⟨g', r', hg'⟩ := matchMDot_some_of_isM (s3 ++ r) hm
          refine ⟨(c :: g', r'), ?_⟩
          rw [List.cons_append, matchSpM.eq_def]
          dsimp only
          rw [if_pos hsp, List.cons_append, hg']
      | none =>
        rw [hmd] at h
        have hm : isM c = true := matchMDot_isM_head h
        rw [space_not_m hsp] at hm
        exact absurd hm (by simp)
    · rw [if_neg hsp] at h
      have hm : isM c = true := matchMDot_isM_head h
      obtain ⟨g', r', hg'⟩ := matchMDot_some_of_isM (s2 ++ r) hm
      refine ⟨(g', r'), ?_⟩
      rw [List.cons_append, matchSpM.eq_def]
      dsimp only
      rw [if_neg hsp]
      exact hg'

theorem matchAmPmTail_ext {s : List Char} (r : List Char) {x : Bool × List Char × List Char}
    (h : matchAmPmTail (fun _ => true) s = some x) :
    ∃ y, matchAmPmTail (fun _ => true) (s ++ r) = some y := by
  match s with
  | [] => simp [matchAmPmTail] at h
  | c :: s1 =>
    rw [matchAmPmTail.eq_def] at h
    dsimp only at h
    by_cases hap : isAP c = true
    case neg => rw [if_neg hap] at h; simp at h
    rw [if_pos hap] at h
    match s1 with
    | [] =>
      dsimp only at h
      rw [show matchSpM (fun _ => true) ([] : List Char) = none from rfl] at h
      simp at h
    | d :: s2 =>
      dsimp only at h
      by_cases hd : d = '.'
      · rw [if_pos hd] at h
        match hsp : matchSpM (fun _ => true) s2 with
        | some (g0, r0) =>
          obtain ⟨⟨g', r'⟩, hg'⟩ := matchSpM_ext r hsp
          refine ⟨(isPMletter c, c :: (d :: g'), r'), ?_⟩
          rw [List.cons_append, List.cons_append, matchAmPmTail.eq_def]
          dsimp only
          rw [if_pos hap]
          rw [if_pos hd, hg']
        | none =>
          rw [hsp] at h
          subst hd
          rw [show matchSpM (fun _ => true) ('.' :: s2) =
              matchMDot (fun _ => true) ('.' :: s2) from by
            rw [matchSpM.eq_def]; dsimp only
            rw [if_neg (by rw [show pyIsSpace '.' = false from rfl]; simp)]] at h
          match h2 : matchMDot (fun _ => true) ('.' :: s2) with
          | some x2 =>
            have := matchMDot_isM_head h2
            rw [show isM '.' = false from rfl] at this
            exact absurd this (by simp)
          | none => rw [h2] at h; simp at h
      · rw [if_neg hd] at h
        match hsp : matchSpM (fun _ => true) (d :: s2) with
        | some (g0, r0) =>
          obtain ⟨⟨g', r'⟩, hg'⟩ := matchSpM_ext r hsp
          refine ⟨(isPMletter c, c :: g', r'), ?_⟩
          rw [List.cons_append, List.cons_append, matchAmPmTail.eq_def]
          dsimp only
          rw [if_pos hap]
          rw [List.cons_append] at hg'
          rw [if_neg hd, hg']
        | none => rw [hsp] at h; simp at h

theorem cdAfterHour_ext {h0 : ℕ} {hd s : List Char} (r : List Char)
    {x : (ℕ × ℕ × Bool) × List Char × List Char}
    (h : cdAfterHour h0 hd s = some x) :
    ∃ y, cdAfterHour h0 hd (s ++ r) = some y := by
  match s with
  | [] => simp [cdAfterHour] at h
  | sep :: s2 =>
    rw [cdAfterHour.eq_def] at h
    dsimp only at h
    by_cases hsep : isSep sep = true
    case neg => rw [if_neg hsep] at h; simp at h
    rw [if_pos hsep] at h
    match hm : spMin s2 with
    | none => rw [hm] at h; simp at h
    | some (gmin, mn, s4) =>
      rw [hm] at h
      dsimp only at h
      obtain ⟨hs2, -, hreplay⟩ := spMin_spec hm
      rcases hmu : munch pyIsSpace s4 with ⟨w2, s5⟩
      rw [hmu] at h
      dsimp only at h
      match hat : matchAmPmTail (fun _ => true) s5 with
      | none => rw [hat] at h; simp at h
      | some (pm', gt, rest') =>
        obtain ⟨⟨pm2, g2, r2⟩, hg2⟩ := matchAmPmTail_ext r hat
        have hs5ne : ∃ c0 t0, s5 = c0 :: t0 ∧ pyIsSpace c0 = false := by
          match s5, hat with
          | c0 :: t0, hat =>
            rw [matchAmPmTail.eq_def] at hat
            dsimp only at hat
            by_cases hap : isAP c0 = true
            · exact ⟨c0, t0, rfl, ap_not_space hap⟩
            · rw [if_neg hap] at hat; simp at hat
        obtain ⟨c0, t0, hs5eq, hc0⟩ := hs5ne
        have hw2 : ∀ c ∈ w2, pyIsSpace c = true := by
          have := munch_all pyIsSpace s4
          rw [hmu] at this
          exact this
        have hs4 : s4 = w2 ++ s5 := by
          have := munch_append pyIsSpace s4
          rw [hmu] at this
          exact this.symm
        refine ⟨((h0, mn, pm2), hd ++ sep :: (gmin ++ w2 ++ g2), r2), ?_⟩
        rw [List.cons_append, cdAfterHour.eq_def]
        dsimp only
        rw [if_pos hsep]
        rw [show s2 ++ r = gmin ++ (s4 ++ r) from by rw [hs2]; simp]
        rw [hreplay (s4 ++ r)]
        dsimp only
        rw [show s4 ++ r = w2 ++ (s5 ++ r) from by rw [hs4]; simp]
        rw [munch_of pyIsSpace w2 (s5 ++ r) hw2
          (fun c hc => by
            rw [hs5eq] at hc
            simp only [List.cons_append, List.head?_cons, Option.some.injEq] at hc
            exact hc ▸ hc0)]
        dsimp only
        rw [hg2]

theorem attemptCD_spec {s : List Char} {pay : ℕ × ℕ × Bool} {g rest : List Char}
    (h : attemptCD s = some (pay, g, rest)) :
    s = g ++ rest ∧ g ≠ [] ∧
      (∀ d, g.head? = some d → pyIsDigit d = true) ∧
      (∀ d, g.getLast? = some d → pyIsSpace d = false) ∧
      attemptCD g = some (pay, g, []) := by
  match s with
  | [] => simp [attemptCD] at h
  | [d1] =>
    rw [attemptCD] at h
    by_cases hd1 : pyIsDigit d1 = true
    · rw [if_pos hd1] at h
      simp [cdAfterHour] at h
    · rw [if_neg hd1] at h
      simp at h
  | d1 :: d2 :: s2 =>
    rw [attemptCD] at h
    by_cases hdd : pyIsDigit d1 && pyIsDigit d2
    · rw [if_pos hdd] at h
      simp only [Bool.and_eq_true] at hdd
      match hA : cdAfterHour (10 * digitVal d1 + digitVal d2) [d1, d2] s2 with
      | some xA =>
        rw [hA] at h
        rw [show orElseO (some xA)
            (cdAfterHour (digitVal d1) [d1] (d2 :: s2)) = some xA from rfl] at h
        rw [h] at hA
        obtain ⟨mid, hs2, hg, hmne, hlast, hrep⟩ := cdAfterHour_spec hA
        refine ⟨by rw [hs2, hg]; simp, by rw [hg]; simp, ?_, ?_, ?_⟩
        · intro d hdh
          rw [hg] at hdh
          simp only [List.cons_append, List.head?_cons, Option.some.injEq] at hdh
          exact hdh ▸ hdd.1
        · intro d hdl
          rw [hg, show [d1, d2] ++ mid = ([d1, d2] : List Char) ++ mid from rfl,
            getLast?_append_right hmne] at hdl
          exact hlast d hdl
        · rw [hg]
          rw [show ([d1, d2] : List Char) ++ mid = d1 :: d2 :: mid from rfl]
          rw [attemptCD, if_pos (by simp [hdd.1, hdd.2])]
          rw [hrep]
          rw [show orElseO (some (pay, [d1, d2] ++ mid, []))
              (cdAfterHour (digitVal d1) [d1] (d2 :: mid)) =
              some (pay, [d1, d2] ++ mid, []) from rfl]
          rfl
      | none =>
        rw [hA] at h
        rw [show orElseO (none : Option ((ℕ × ℕ × Bool) × List Char × List Char))
            (cdAfterHour (digitVal d1) [d1] (d2 :: s2)) =
            cdAfterHour (digitVal d1) [d1] (d2 :: s2) from rfl] at h
        obtain ⟨mid, hs2, hg, hmne, hlast, hrep⟩ := cdAfterHour_spec h
        obtain ⟨m0, mid', rfl⟩ := List.exists_cons_of_ne_nil hmne
        simp only [List.cons_append] at hs2
        rw [List.cons.injEq] at hs2
        obtain ⟨hm0, hs2'⟩ := hs2
        subst hm0
        have hA' : cdAfterHour (10 * digitVal d1 + digitVal d2) [d1, d2] mid' = none := by
          match hA2 : cdAfterHour (10 * digitVal d1 + digitVal d2) [d1, d2] mid' with
          | none => rfl
          | some x2 =>
            obtain ⟨y, hy⟩ := cdAfterHour_ext rest hA2
            rw [← hs2'] at hy
            rw [hy] at hA
            exact absurd hA (by simp)
        refine ⟨by rw [hg, hs2']; simp, by rw [hg]; simp, ?_, ?_, ?_⟩
        · intro d hdh
          rw [hg] at hdh
          simp only [List.cons_append, List.head?_cons, Option.some.injEq] at hdh
          exact hdh ▸ hdd.1
        · intro d hdl
          rw [hg, getLast?_append_right hmne] at hdl
          exact hlast d hdl
        · rw [hg]
          rw [show [d1] ++ d2 :: mid' = d1 :: d2 :: mid' from rfl]
          rw [attemptCD, if_pos (by simp [hdd.1, hdd.2])]
          rw [hA']
          rw [show orElseO (none : Option ((ℕ × ℕ × Bool) × List Char × List Char))
              (cdAfterHour (digitVal d1) [d1] (d2 :: mid')) =
              cdAfterHour (digitVal d1) [d1] (d2 :: mid') from rfl]
          rw [hrep]
          rfl
    · rw [if_neg hdd] at h
      by_cases hd1 : pyIsDigit d1 = true
      case neg => rw [if_neg hd1] at h; simp at h
      rw [if_pos hd1] at h
      have hd2 : pyIsDigit d2 = false := by
        by_cases h2 : pyIsDigit d2 = true
        · exact absurd (by simp [hd1, h2]) hdd
        · simpa using h2
      obtain ⟨mid, hs2, hg, hmne, hlast, hrep⟩ := cdAfterHour_spec h
      obtain ⟨m0, mid', rfl⟩ := List.exists_cons_of_ne_nil hmne
      simp only [List.cons_append] at hs2
      rw [List.cons.injEq] at hs2
      obtain ⟨hm0, hs2'⟩ := hs2
      subst hm0
      refine ⟨by rw [hg, hs2']; simp, by rw [hg]; simp, ?_, ?_, ?_⟩
      · intro d hdh
        rw [hg] at hdh
        simp only [List.cons_append, List.head?_cons, Option.some.injEq] at hdh
        exact hdh ▸ hd1
      · intro d hdl
        rw [hg, getLast?_append_right hmne] at hdl
        exact hlast d hdl
      · rw [hg]
        rw [show [d1] ++ d2 :: mid' = d1 :: d2 :: mid' from rfl]
        rw [attemptCD, if_neg (by simp [hd2]), if_pos hd1]
        rw [hrep]
        rfl

theorem sep_not_digit {c : Char} (h : isSep c = true) : pyIsDigit c = false := by
  simp only [isSep, Bool.or_eq_true, decide_eq_true_eq] at h
  rcases h with h | h <;> subst h <;> decide

theorem digit_not_sep {c : Char} (h : pyIsDigit c = true) : isSep c = false := by
  cases hs : isSep c
  · rfl
  · rw [sep_not_digit hs] at h
    exact absurd h (by simp)

theorem space_not_sep {c : Char} (h : pyIsSpace c = true) : isSep c = false := by
  simp only [pyIsSpace, Bool.or_eq_true, decide_eq_true_eq] at h
  rcases h with ((((h | h) | h) | h) | h) | h <;> subst h <;> decide

theorem digit_not_ap {c : Char} (h : pyIsDigit c = true) : isAP c = false := by
  cases hs : isAP c
  · rfl
  · rw [ap_not_digit hs] at h
    exact absurd h (by simp)

theorem digit_of_range {c : Char} (h1 : '0' ≤ c) (h2 : c ≤ '5') :
    pyIsDigit c = true := by
  have h9 : c ≤ '9' := le_trans h2 (by decide)
  simp only [pyIsDigit, Char.isDigit, Char.le_def] at h1 h9 ⊢
  simp only [Bool.and_eq_true, decide_eq_true_eq]
  exact ⟨h1, h9⟩

theorem nmAfterHour_spec {h0 : ℕ} {hd s1 : List Char} {pay : ℕ × Bool}
    {g rest : List Char} (h : nmAfterHour h0 hd s1 = some (pay, g, rest)) :
    ∃ w gt, s1 = w ++ gt ++ rest ∧ g = hd ++ w ++ gt ∧
      (∀ c ∈ w, pyIsSpace c = true) ∧ (∀ c ∈ gt, pyIsDigit c = false) ∧
      (∃ ap gt2, gt = ap :: gt2 ∧ isAP ap = true) ∧
      (∀ d, gt.getLast? = some d → pyIsSpace d = false) ∧
      nmAfterHour h0 hd (w ++ gt) = some (pay, hd ++ w ++ gt, []) := by
  rw [nmAfterHour] at h
  rcases hmu : munch pyIsSpace s1 with ⟨w, s2⟩
  rw [hmu] at h
  dsimp only at h
  match hat : matchAmPmTail nmLA s2 with
  | none => rw [hat] at h; simp at h
  | some (pm', gt, rest') =>
    rw [hat] at h
    simp only [Option.some.injEq, Prod.mk.injEq] at h
    obtain ⟨rfl, rfl, rfl⟩ := h
    obtain ⟨hs2, ⟨capc, g2, rfl, hap, -⟩, hgdf, hgtlast, hgtrepro⟩ := matchAmPmTail_spec hat
    have hw : ∀ c ∈ w, pyIsSpace c = true := by
      have := munch_all pyIsSpace s1
      rw [hmu] at this
      exact this
    have hs1 : s1 = w ++ (capc :: g2) ++ rest' := by
      have := munch_append pyIsSpace s1
      rw [hmu] at this
      rw [← this, hs2]
      simp
    refine ⟨w, capc :: g2, hs1, rfl, hw, hgdf, ⟨capc, g2, rfl, hap⟩, hgtlast, ?_⟩
    rw [nmAfterHour]
    rw [munch_of pyIsSpace w (capc :: g2) hw
      (fun c hc => by
        simp only [List.head?_cons, Option.some.injEq] at hc
        exact hc ▸ ap_not_space hap)]
    dsimp only
    rw [hgtrepro rfl]

theorem nmAfterHour_nil {h0 : ℕ} {hd : List Char} : nmAfterHour h0 hd [] = none := rfl

/-- Shared facts about an `nmAfterHour` success: group decomposition
into digits then a digit-free tail, and replay of the whole pattern on
the group alone. -/
theorem nmGroup_facts {dh : List Char} {h0 : ℕ} {s1 : List Char} {pay : ℕ × Bool}
    {g rest : List Char} (_hdh : ∀ c ∈ dh, pyIsDigit c = true)
    (h : nmAfterHour h0 dh s1 = some (pay, g, rest)) :
    ∃ w gt, s1 = w ++ gt ++ rest ∧ g = dh ++ (w ++ gt) ∧
      (∀ c ∈ w ++ gt, pyIsDigit c = false) ∧
      (∀ c, (w ++ gt).head? = some c → isSep c = false) ∧
      (∀ c, (w ++ gt).head? = some c → pyIsDigit c = false) ∧
      gt ≠ [] ∧
      (∀ d, g.getLast? = some d → pyIsSpace d = false) ∧
      nmAfterHour h0 dh (w ++ gt) = some (pay, dh ++ (w ++ gt), []) := by
  obtain ⟨w, gt, hs1, hg, hw, hgdf, ⟨capc, g2, hgt, hap⟩, hgtl, hrep⟩ :=
    nmAfterHour_spec h
  have hgtne : gt ≠ [] := by rw [hgt]; simp
  have hr0df : ∀ c ∈ w ++ gt, pyIsDigit c = false := by
    intro c hc
    rcases List.mem_append.mp hc with hc | hc
    · exact space_not_digit (hw c hc)
    · exact hgdf c hc
  have hr0h : ∀ c, (w ++ gt).head? = some c → isSep c = false := by
    intro c hc
    match w, hc with
    | [], hc =>
      rw [List.nil_append, hgt] at hc
      simp only [List.head?_cons, Option.some.injEq] at hc
      exact hc ▸ ap_not_sep hap
    | cw :: w', hc =>
      simp only [List.cons_append, List.head?_cons, Option.some.injEq] at hc
      exact hc ▸ space_not_sep (hw cw (by simp))
  have hr0hd : ∀ c, (w ++ gt).head? = some c → pyIsDigit c = false := by
    intro c hc
    match w, hc with
    | [], hc =>
      rw [List.nil_append, hgt] at hc
      simp only [List.head?_cons, Option.some.injEq] at hc
      exact hc ▸ ap_not_digit hap
    | cw :: w', hc =>
      simp only [List.cons_append, List.head?_cons, Option.some.injEq] at hc
      exact hc ▸ space_not_digit (hw cw (by simp))
  refine ⟨w, gt, hs1, by rw [hg]; simp, hr0df, hr0h, hr0hd, hgtne, ?_, ?_⟩
  · intro d hdl
    rw [hg, show dh ++ w ++ gt = (dh ++ w) ++ gt from by simp,
      getLast?_append_right hgtne] at hdl
    exact hgtl d hdl
  · rw [show dh ++ (w ++ gt) = dh ++ w ++ gt from by simp]
    exact hrep

theorem attemptNM_spec {prev : Option Char} {s : List Char} {pay : ℕ × Bool}
    {g rest : List Char} (h : attemptNM prev s = some (pay, g, rest)) :
    s = g ++ rest ∧
    (∃ dh rest0, g = dh ++ rest0 ∧ dh ≠ [] ∧ (∀ c ∈ dh, pyIsDigit c = true) ∧
      (∀ c ∈ rest0, pyIsDigit c = false) ∧
      (∀ c, rest0.head? = some c → isSep c = false)) ∧
    (∀ d, g.head? = some d → pyIsDigit d = true) ∧
    (∀ d, g.getLast? = some d → pyIsSpace d = false) ∧
    attemptNM none g = some (pay, g, []) := by
  match s with
  | [] => simp [attemptNM] at h
  | [d1] =>
    rw [attemptNM] at h
    by_cases hp : prevIsDigit prev = true
    case pos => rw [if_pos hp] at h; simp at h
    rw [if_neg hp] at h
    by_cases hd1 : pyIsDigit d1 = true
    · rw [if_pos hd1, nmAfterHour_nil] at h
      simp at h
    · rw [if_neg hd1] at h
      simp at h
  | d1 :: d2 :: s2 =>
    rw [attemptNM] at h
    by_cases hp : prevIsDigit prev = true
    case pos => rw [if_pos hp] at h; simp at h
    rw [if_neg hp] at h
    by_cases hdd : pyIsDigit d1 && pyIsDigit d2
    · rw [if_pos hdd] at h
      simp only [Bool.and_eq_true] at hdd
      have hdh2 : ∀ c ∈ ([d1, d2] : List Char), pyIsDigit c = true := by
        intro c hc
        simp only [List.mem_cons, List.not_mem_nil, or_false] at hc
        rcases hc with hc | hc
        · exact hc ▸ hdd.1
        · exact hc ▸ hdd.2
      match hA : nmAfterHour (10 * digitVal d1 + digitVal d2) [d1, d2] s2 with
      | some xA =>
        rw [hA] at h
        rw [show orElseO (some xA)
            (nmAfterHour (digitVal d1) [d1] (d2 :: s2)) = some xA from rfl] at h
        rw [h] at hA
        obtain ⟨w, gt, hs2, hg, hr0df, hr0h, hr0hd, hgtne, hlast, hrep⟩ :=
          nmGroup_facts hdh2 hA
        refine ⟨by rw [hg, hs2]; simp, ⟨[d1, d2], w ++ gt, hg, by simp, hdh2,
          hr0df, hr0h⟩, ?_, hlast, ?_⟩
        · intro d hdh
          rw [hg] at hdh
          simp only [List.cons_append, List.head?_cons, Option.some.injEq] at hdh
          exact hdh ▸ hdd.1
        · rw [hg]
          rw [show ([d1, d2] : List Char) ++ (w ++ gt) = d1 :: d2 :: (w ++ gt) from rfl]
          rw [attemptNM, if_neg (by rw [show prevIsDigit none = false from rfl]; simp),
            if_pos (by simp [hdd.1, hdd.2])]
          rw [hrep]
          rfl
      | none =>
        rw [hA] at h
        rw [show orElseO (none : Option ((ℕ × Bool) × List Char × List Char))
            (nmAfterHour (digitVal d1) [d1] (d2 :: s2)) =
            nmAfterHour (digitVal d1) [d1] (d2 :: s2) from rfl] at h
        obtain ⟨w, gt, hs2, hg, hr0df, hr0h, hr0hd, hgtne, hlast, hrep⟩ :=
          nmGroup_facts (by intro c hc; simp at hc; exact hc ▸ hdd.1) h
        have hwgne : w ++ gt ≠ [] := by
          intro hc
          exact hgtne (List.append_eq_nil.mp hc).2
        obtain ⟨c2, t2, hwgt⟩ := List.exists_cons_of_ne_nil hwgne
        have hc2nd : pyIsDigit c2 = false := hr0hd c2 (by rw [hwgt]; rfl)
        refine ⟨?_, ⟨[d1], w ++ gt, hg, by simp,
          by intro c hc; simp at hc; exact hc ▸ hdd.1, hr0df, hr0h⟩, ?_, hlast, ?_⟩
        · rw [hg, show (d1 :: d2 :: s2 : List Char) = d1 :: (d2 :: s2) from rfl, hs2]
          simp
        · intro d hdh
          rw [hg] at hdh
          simp only [List.cons_append, List.head?_cons, Option.some.injEq] at hdh
          exact hdh ▸ hdd.1
        · rw [hg]
          rw [show ([d1] : List Char) ++ (w ++ gt) = d1 :: (w ++ gt) from rfl, hwgt]
          rw [attemptNM, if_neg (by rw [show prevIsDigit none = false from rfl]; simp),
            if_neg (by simp [hc2nd]), if_pos hdd.1]
          rw [← hwgt, hrep]
          rfl
    · rw [if_neg hdd] at h
      by_cases hd1 : pyIsDigit d1 = true
      case neg => rw [if_neg hd1] at h; simp at h
      rw [if_pos hd1] at h
      obtain ⟨w, gt, hs2, hg, hr0df, hr0h, hr0hd, hgtne, hlast, hrep⟩ :=
        nmGroup_facts (by intro c hc; simp at hc; exact hc ▸ hd1) h
      have hwgne : w ++ gt ≠ [] := by
        intro hc
        exact hgtne (List.append_eq_nil.mp hc).2
      obtain ⟨c2, t2, hwgt⟩ := List.exists_cons_of_ne_nil hwgne
      have hc2nd : pyIsDigit c2 = false := hr0hd c2 (by rw [hwgt]; rfl)
      refine ⟨?_, ⟨[d1], w ++ gt, hg, by simp,
        by intro c hc; simp at hc; exact hc ▸ hd1, hr0df, hr0h⟩, ?_, hlast, ?_⟩
      · rw [hg, show (d1 :: d2 :: s2 : List Char) = d1 :: (d2 :: s2) from rfl, hs2]
        simp
      · intro d hdh
        rw [hg] at hdh
        simp only [List.cons_append, List.head?_cons, Option.some.injEq] at hdh
        exact hdh ▸ hd1
      · rw [hg]
        rw [show ([d1] : List Char) ++ (w ++ gt) = d1 :: (w ++ gt) from rfl, hwgt]
        rw [attemptNM, if_neg (by rw [show prevIsDigit none = false from rfl]; simp),
          if_neg (by simp [hc2nd]), if_pos hd1]
        rw [← hwgt, hrep]
        rfl

theorem h24Cont_spec {h0 : ℕ} {hd s : List Char} {pay : ℕ × ℕ} {g rest : List Char}
    (h : h24Cont h0 hd s = some (pay, g, rest)) :
    ∃ m1 m2, s = ':' :: m1 :: m2 :: rest ∧ g = hd ++ ':' :: [m1, m2] ∧
      pyIsDigit m1 = true ∧ pyIsDigit m2 = true ∧
      h24Cont h0 hd (':' :: [m1, m2]) = some (pay, hd ++ ':' :: [m1, m2], []) := by
  match s with
  | [] => simp [h24Cont] at h
  | [c] => simp [h24Cont] at h
  | [c, m1] => simp [h24Cont] at h
  | c :: m1 :: m2 :: s3 =>
    rw [h24Cont] at h
    by_cases hcond : c = ':' && ('0' ≤ m1 && m1 ≤ '5') && pyIsDigit m2 && h24LA s3
    case neg => rw [if_neg hcond] at h; simp at h
    rw [if_pos hcond] at h
    simp only [Option.some.injEq, Prod.mk.injEq] at h
    obtain ⟨rfl, rfl, rfl⟩ := h
    simp only [Bool.and_eq_true, decide_eq_true_eq] at hcond
    obtain ⟨⟨⟨rfl, hm1a, hm1b⟩, hm2⟩, -⟩ := hcond
    have hm1 : pyIsDigit m1 = true := digit_of_range hm1a hm1b
    refine ⟨m1, m2, rfl, rfl, hm1, hm2, ?_⟩
    rw [h24Cont, if_pos]
    simp only [Bool.and_eq_true, decide_eq_true_eq]
    exact ⟨⟨⟨trivial, hm1a, hm1b⟩, hm2⟩, rfl⟩

theorem h24Cont_chars {h0 : ℕ} {hd s : List Char} {pay : ℕ × ℕ} {g rest : List Char}
    (h : h24Cont h0 hd s = some (pay, g, rest))
    (hhd : ∀ c ∈ hd, pyIsDigit c = true) :
    ∀ c ∈ g, pyIsDigit c = true ∨ c = ':' := by
  obtain ⟨m1, m2, -, hg, hm1, hm2, -⟩ := h24Cont_spec h
  intro c hc
  rw [hg] at hc
  rcases List.mem_append.mp hc with hc | hc
  · exact Or.inl (hhd c hc)
  · simp only [List.mem_cons, List.not_mem_nil, or_false] at hc
    rcases hc with rfl | rfl | rfl
    · exact Or.inr rfl
    · exact Or.inl hm1
    · exact Or.inl hm2

theorem attemptH24_spec {prev : Option Char} {s : List Char} {pay : ℕ × ℕ}
    {g rest : List Char} (h : attemptH24 prev s = some (pay, g, rest)) :
    s = g ++ rest ∧
    (∀ c ∈ g, pyIsDigit c = true ∨ c = ':') ∧
    (∀ d, g.head? = some d → pyIsDigit d = true) ∧
    (∀ d, g.getLast? = some d → pyIsSpace d = false) ∧
    attemptH24 none g = some (pay, g, []) := by
  match s with
  | [] => simp [attemptH24] at h
  | [d1] =>
    rw [attemptH24] at h
    by_cases hp : prevIsDigit prev = true
    case pos => rw [if_pos hp] at h; simp at h
    rw [if_neg hp] at h
    by_cases hd1 : pyIsDigit d1 = true
    · rw [if_pos hd1] at h
      simp [h24Cont] at h
    · rw [if_neg hd1] at h
      simp at h
  | a :: b :: s2 =>
    rw [attemptH24] at h
    by_cases hp : prevIsDigit prev = true
    case pos => rw [if_pos hp] at h; simp at h
    rw [if_neg hp] at h
    by_cases hc1 : (a = '0' || a = '1') && pyIsDigit b
    · rw [if_pos hc1] at h
      match hA : h24Cont (10 * digitVal a + digitVal b) [a, b] s2 with
      | some xA =>
        rw [hA] at h
        rw [show orElseO (some xA) (orElseO
            (if pyIsDigit a = true then h24Cont (digitVal a) [a] (b :: s2) else none)
            (if a = '2' && ('0' ≤ b && b ≤ '3') then
              h24Cont (20 + digitVal b) [a, b] s2 else none)) = some xA from rfl] at h
        rw [h] at hA
        simp only [Bool.and_eq_true, Bool.or_eq_true, decide_eq_true_eq] at hc1
        have hda : pyIsDigit a = true := by
          rcases hc1.1 with rfl | rfl <;> decide
        have hhd2 : ∀ c ∈ ([a, b] : List Char), pyIsDigit c = true := by
          intro c hc
          simp only [List.mem_cons, List.not_mem_nil, or_false] at hc
          rcases hc with rfl | rfl
          · exact hda
          · exact hc1.2
        obtain ⟨m1, m2, hs2, hg, hm1, hm2, hrep⟩ := h24Cont_spec hA
        have hchars := h24Cont_chars hA hhd2
        refine ⟨by rw [hg, hs2]; rfl, hchars, ?_, ?_, ?_⟩
        · intro d hdh
          rw [hg] at hdh
          simp only [List.cons_append, List.head?_cons, Option.some.injEq] at hdh
          exact hdh ▸ hda
        · intro d hdl
          rw [hg, show ([a, b] : List Char) ++ ':' :: [m1, m2] =
            ([a, b] ++ [':', m1]) ++ [m2] from by simp,
            getLast?_append_right (by simp)] at hdl
          simp only [List.getLast?_singleton, Option.some.injEq] at hdl
          exact hdl ▸ digit_not_space hm2
        · rw [hg]
          rw [show ([a, b] : List Char) ++ ':' :: [m1, m2] =
            a :: b :: (':' :: [m1, m2]) from rfl]
          rw [attemptH24, if_neg (by rw [show prevIsDigit none = false from rfl]; simp),
            if_pos (by simp only [Bool.and_eq_true, Bool.or_eq_true, decide_eq_true_eq]
                       exact hc1)]
          rw [hrep]
          rfl
      | none =>
        rw [hA] at h
        rw [show orElseO (none : Option ((ℕ × ℕ) × List Char × List Char)) (orElseO
            (if pyIsDigit a = true then h24Cont (digitVal a) [a] (b :: s2) else none)
            (if a = '2' && ('0' ≤ b && b ≤ '3') then
              h24Cont (20 + digitVal b) [a, b] s2 else none)) = orElseO
            (if pyIsDigit a = true then h24Cont (digitVal a) [a] (b :: s2) else none)
            (if a = '2' && ('0' ≤ b && b ≤ '3') then
              h24Cont (20 + digitVal b) [a, b] s2 else none) from rfl] at h
      -- the one-digit alternative needs the next char to be ':', but b is a
      -- digit here, so it fails; the 2[0-3] alternative needs a = '2', but a
      -- is 0 or 1: both impossible, so this case cannot arise
        simp only [Bool.and_eq_true, Bool.or_eq_true, decide_eq_true_eq] at hc1
        have hda : pyIsDigit a = true := by
          rcases hc1.1 with rfl | rfl <;> decide
        rw [if_pos hda] at h
        match hB : h24Cont (digitVal a) [a] (b :: s2) with
        | some xB =>
          obtain ⟨m1, m2, hbs, -⟩ := h24Cont_spec hB
          have : b = ':' := (List.cons.injEq _ _ _ _ ▸ hbs : _ ∧ _).1
          rw [this] at hc1
          exact absurd hc1.2 (by decide)
        | none =>
          rw [hB] at h
          rw [show orElseO (none : Option ((ℕ × ℕ) × List Char × List Char))
              (if a = '2' && ('0' ≤ b && b ≤ '3') then
                h24Cont (20 + digitVal b) [a, b] s2 else none) =
              (if a = '2' && ('0' ≤ b && b ≤ '3') then
                h24Cont (20 + digitVal b) [a, b] s2 else none) from rfl] at h
          by_cases hc3 : a = '2' && ('0' ≤ b && b ≤ '3')
          · simp only [Bool.and_eq_true, decide_eq_true_eq] at hc3
            rcases hc1.1 with rfl | rfl
            · exact absurd hc3.1 (by decide)
            · exact absurd hc3.1 (by decide)
          · rw [if_neg hc3] at h
            simp at h
    · rw [if_neg hc1] at h
      rw [show orElseO (none : Option ((ℕ × ℕ) × List Char × List Char)) (orElseO
          (if pyIsDigit a = true then h24Cont (digitVal a) [a] (b :: s2) else none)
          (if a = '2' && ('0' ≤ b && b ≤ '3') then
            h24Cont (20 + digitVal b) [a, b] s2 else none)) = orElseO
          (if pyIsDigit a = true then h24Cont (digitVal a) [a] (b :: s2) else none)
          (if a = '2' && ('0' ≤ b && b ≤ '3') then
            h24Cont (20 + digitVal b) [a, b] s2 else none) from rfl] at h
      by_cases hda : pyIsDigit a = true
      · rw [if_pos hda] at h
        match hB : h24Cont (digitVal a) [a] (b :: s2) with
        | some xB =>
          rw [hB] at h
          rw [show orElseO (some xB)
              (if a = '2' && ('0' ≤ b && b ≤ '3') then
                h24Cont (20 + digitVal b) [a, b] s2 else none) = some xB from rfl] at h
          rw [h] at hB
          obtain ⟨m1, m2, hbs, hg, hm1, hm2, hrep⟩ := h24Cont_spec hB
          have hbcol : b = ':' := (List.cons.injEq _ _ _ _ ▸ hbs : _ ∧ _).1
          have hs2' : s2 = m1 :: m2 :: rest := (List.cons.injEq _ _ _ _ ▸ hbs : _ ∧ _).2
          have hchars := h24Cont_chars hB (by intro c hc; simp at hc; exact hc ▸ hda)
          refine ⟨by rw [hg, hbs]; rfl, hchars, ?_, ?_, ?_⟩
          · intro d hdh
            rw [hg] at hdh
            simp only [List.cons_append, List.head?_cons, Option.some.injEq] at hdh
            exact hdh ▸ hda
          · intro d hdl
            rw [hg, show ([a] : List Char) ++ ':' :: [m1, m2] =
              ([a] ++ [':', m1]) ++ [m2] from by simp,
              getLast?_append_right (by simp)] at hdl
            simp only [List.getLast?_singleton, Option.some.injEq] at hdl
            exact hdl ▸ digit_not_space hm2
          · rw [hg]
            rw [show ([a] : List Char) ++ ':' :: [m1, m2] =
              a :: ':' :: (m1 :: [m2]) from rfl]
            rw [attemptH24, if_neg (by rw [show prevIsDigit none = false from rfl]; simp)]
            rw [show pyIsDigit ':' = false from by decide, Bool.and_false,
              if_neg (show ¬(false = true) from by simp)]
            rw [show orElseO (none : Option ((ℕ × ℕ) × List Char × List Char)) (orElseO
                (if pyIsDigit a = true then
                  h24Cont (digitVal a) [a] (':' :: m1 :: [m2]) else none)
                (if a = '2' && ('0' ≤ ':' && ':' ≤ '3') then
                  h24Cont (20 + digitVal ':') [a, ':'] (m1 :: [m2]) else none)) = orElseO
                (if pyIsDigit a = true then
                  h24Cont (digitVal a) [a] (':' :: m1 :: [m2]) else none)
                (if a = '2' && ('0' ≤ ':' && ':' ≤ '3') then
                  h24Cont (20 + digitVal ':') [a, ':'] (m1 :: [m2]) else none) from rfl]
            rw [if_pos hda, hrep]
            rfl
        | none =>
          rw [hB] at h
          rw [show orElseO (none : Option ((ℕ × ℕ) × List Char × List Char))
              (if a = '2' && ('0' ≤ b && b ≤ '3') then
                h24Cont (20 + digitVal b) [a, b] s2 else none) =
              (if a = '2' && ('0' ≤ b && b ≤ '3') then
                h24Cont (20 + digitVal b) [a, b] s2 else none) from rfl] at h
          by_cases hc3 : a = '2' && ('0' ≤ b && b ≤ '3')
          case neg => rw [if_neg hc3] at h; simp at h
          rw [if_pos hc3] at h
          simp only [Bool.and_eq_true, decide_eq_true_eq] at hc3
          obtain ⟨rfl, hb0, hb3⟩ := hc3
          have hdb : pyIsDigit b = true :=
            digit_of_range hb0 (le_trans hb3 (by decide))
          obtain ⟨m1, m2, hs2, hg, hm1, hm2, hrep⟩ := h24Cont_spec h
          have hchars := h24Cont_chars h (by
            intro c hc
            simp only [List.mem_cons, List.not_mem_nil, or_false] at hc
            rcases hc with rfl | rfl
            · decide
            · exact hdb)
          refine ⟨by rw [hg, hs2]; rfl, hchars, ?_, ?_, ?_⟩
          · intro d hdh
            rw [hg] at hdh
            simp only [List.cons_append, List.head?_cons, Option.some.injEq] at hdh
            exact hdh ▸ (by decide : pyIsDigit '2' = true)
          · intro d hdl
            rw [hg, show ('2' :: b :: [] : List Char) ++ ':' :: [m1, m2] =
              (['2', b] ++ [':', m1]) ++ [m2] from by simp,
              getLast?_append_right (by simp)] at hdl
            simp only [List.getLast?_singleton, Option.some.injEq] at hdl
            exact hdl ▸ digit_not_space hm2
          · rw [hg]
            rw [show (['2', b] : List Char) ++ ':' :: [m1, m2] =
              '2' :: b :: (':' :: [m1, m2]) from rfl]
            rw [attemptH24, if_neg (by rw [show prevIsDigit none = false from rfl]; simp)]
            rw [show (('2' = '0' : Bool) || ('2' = '1' : Bool)) = false from by decide,
              Bool.false_and, if_neg (show ¬(false = true) from by simp)]
            rw [show orElseO (none : Option ((ℕ × ℕ) × List Char × List Char)) (orElseO
                (if pyIsDigit '2' = true then
                  h24Cont (digitVal '2') ['2'] (b :: ':' :: [m1, m2]) else none)
                (if '2' = '2' && ('0' ≤ b && b ≤ '3') then
                  h24Cont (20 + digitVal b) ['2', b] (':' :: [m1, m2]) else none)) =
                orElseO
                (if pyIsDigit '2' = true then
                  h24Cont (digitVal '2') ['2'] (b :: ':' :: [m1, m2]) else none)
                (if '2' = '2' && ('0' ≤ b && b ≤ '3') then
                  h24Cont (20 + digitVal b) ['2', b] (':' :: [m1, m2]) else none)
                from rfl]
            rw [if_pos (show pyIsDigit '2' = true from by decide)]
            rw [show h24Cont (digitVal '2') ['2'] (b :: ':' :: [m1, m2]) = none from by
              rw [h24Cont, if_neg (by
                have hbne : b ≠ ':' := fun hb => absurd (hb ▸ hdb) (by decide)
                simp [hbne])]]
            rw [show orElseO (none : Option ((ℕ × ℕ) × List Char × List Char))
                (if '2' = '2' && ('0' ≤ b && b ≤ '3') then
                  h24Cont (20 + digitVal b) ['2', b] (':' :: [m1, m2]) else none) =
                (if '2' = '2' && ('0' ≤ b && b ≤ '3') then
                  h24Cont (20 + digitVal b) ['2', b] (':' :: [m1, m2]) else none)
                from rfl]
            rw [if_pos (by simp only [Bool.and_eq_true, decide_eq_true_eq]
                           exact ⟨trivial, hb0, hb3⟩), hrep]
            rfl
      · rw [if_neg hda] at h
        rw [show orElseO (none : Option ((ℕ × ℕ) × List Char × List Char))
            (if a = '2' && ('0' ≤ b && b ≤ '3') then
              h24Cont (20 + digitVal b) [a, b] s2 else none) =
            (if a = '2' && ('0' ≤ b && b ≤ '3') then
              h24Cont (20 + digitVal b) [a, b] s2 else none) from rfl] at h
        by_cases hc3 : a = '2' && ('0' ≤ b && b ≤ '3')
        case neg => rw [if_neg hc3] at h; simp at h
        simp only [Bool.and_eq_true, decide_eq_true_eq] at hc3
        exact absurd (hc3.1 ▸ (by decide : pyIsDigit '2' = true)) hda

theorem matchAmPmTail_ap {k : List Char → Bool} {s : List Char}
    {x : Bool × List Char × List Char} (h : matchAmPmTail k s = some x) :
    ∃ c ∈ s, isAP c = true := by
  obtain ⟨pm, gt, rest⟩ := x
  obtain ⟨hs, ⟨capc, g2, rfl, hap, -⟩, -⟩ := matchAmPmTail_spec h
  exact ⟨capc, by rw [hs]; simp, hap⟩

theorem cdAfterHour_ap {h0 : ℕ} {hd s : List Char}
    {x : (ℕ × ℕ × Bool) × List Char × List Char}
    (h : cdAfterHour h0 hd s = some x) : ∃ c ∈ s, isAP c = true := by
  match s with
  | [] => simp [cdAfterHour] at h
  | sep :: s2 =>
    rw [cdAfterHour.eq_def] at h
    dsimp only at h
    by_cases hsep : isSep sep = true
    case neg => rw [if_neg hsep] at h; simp at h
    rw [if_pos hsep] at h
    match hm : spMin s2 with
    | none => rw [hm] at h; simp at h
    | some (gmin, mn, s4) =>
      rw [hm] at h
      dsimp only at h
      obtain ⟨hs2, -, -⟩ := spMin_spec hm
      rcases hmu : munch pyIsSpace s4 with ⟨w2, s5⟩
      rw [hmu] at h
      dsimp only at h
      match hat : matchAmPmTail (fun _ => true) s5 with
      | none => rw [hat] at h; simp at h
      | some x5 =>
        obtain ⟨c, hc5, hap⟩ := matchAmPmTail_ap hat
        have hs4 : s4 = w2 ++ s5 := by
          have := munch_append pyIsSpace s4
          rw [hmu] at this
          exact this.symm
        refine ⟨c, ?_, hap⟩
        rw [hs2, hs4]
        simp [hc5]

theorem attemptCD_ap {s : List Char} {x : (ℕ × ℕ × Bool) × List Char × List Char}
    (h : attemptCD s = some x) : ∃ c ∈ s, isAP c = true := by
  match s with
  | [] => simp [attemptCD] at h
  | [d1] =>
    rw [attemptCD] at h
    by_cases hd1 : pyIsDigit d1 = true
    · rw [if_pos hd1] at h
      simp [cdAfterHour] at h
    · rw [if_neg hd1] at h
      simp at h
  | d1 :: d2 :: s2 =>
    rw [attemptCD] at h
    by_cases hdd : pyIsDigit d1 && pyIsDigit d2
    · rw [if_pos hdd] at h
      match hA : cdAfterHour (10 * digitVal d1 + digitVal d2) [d1, d2] s2 with
      | some xA =>
        obtain ⟨c, hc, hap⟩ := cdAfterHour_ap hA
        exact ⟨c, by simp [hc], hap⟩
      | none =>
        rw [hA] at h
        rw [show orElseO (none : Option ((ℕ × ℕ × Bool) × List Char × List Char))
            (cdAfterHour (digitVal d1) [d1] (d2 :: s2)) =
            cdAfterHour (digitVal d1) [d1] (d2 :: s2) from rfl] at h
        obtain ⟨c, hc, hap⟩ := cdAfterHour_ap h
        exact ⟨c, List.mem_cons_of_mem d1 hc, hap⟩
    · rw [if_neg hdd] at h
      by_cases hd1 : pyIsDigit d1 = true
      case neg => rw [if_neg hd1] at h; simp at h
      rw [if_pos hd1] at h
      obtain ⟨c, hc, hap⟩ := cdAfterHour_ap h
      exact ⟨c, List.mem_cons_of_mem d1 hc, hap⟩

theorem nmAfterHour_ap {h0 : ℕ} {hd s1 : List Char}
    {x : (ℕ × Bool) × List Char × List Char}
    (h : nmAfterHour h0 hd s1 = some x) : ∃ c ∈ s1, isAP c = true := by
  obtain ⟨pay, g, rest⟩ := x
  obtain ⟨w, gt, hs1, -, -, -, ⟨capc, g2, rfl, hap⟩, -⟩ := nmAfterHour_spec h
  exact ⟨capc, by rw [hs1]; simp, hap⟩

theorem attemptNM_ap {prev : Option Char} {s : List Char}
    {x : (ℕ × Bool) × List Char × List Char}
    (h : attemptNM prev s = some x) : ∃ c ∈ s, isAP c = true := by
  match s with
  | [] => simp [attemptNM] at h
  | [d1] =>
    rw [attemptNM] at h
    by_cases hp : prevIsDigit prev = true
    case pos => rw [if_pos hp] at h; simp at h
    rw [if_neg hp] at h
    by_cases hd1 : pyIsDigit d1 = true
    · rw [if_pos hd1, nmAfterHour_nil] at h
      simp at h
    · rw [if_neg hd1] at h
      simp at h
  | d1 :: d2 :: s2 =>
    rw [attemptNM] at h
    by_cases hp : prevIsDigit prev = true
    case pos => rw [if_pos hp] at h; simp at h
    rw [if_neg hp] at h
    by_cases hdd : pyIsDigit d1 && pyIsDigit d2
    · rw [if_pos hdd] at h
      match hA : nmAfterHour (10 * digitVal d1 + digitVal d2) [d1, d2] s2 with
      | some xA =>
        obtain ⟨c, hc, hap⟩ := nmAfterHour_ap hA
        exact ⟨c, by simp [hc], hap⟩
      | none =>
        rw [hA] at h
        rw [show orElseO (none : Option ((ℕ × Bool) × List Char × List Char))
            (nmAfterHour (digitVal d1) [d1] (d2 :: s2)) =
            nmAfterHour (digitVal d1) [d1] (d2 :: s2) from rfl] at h
        obtain ⟨c, hc, hap⟩ := nmAfterHour_ap h
        exact ⟨c, List.mem_cons_of_mem d1 hc, hap⟩
    · rw [if_neg hdd] at h
      by_cases hd1 : pyIsDigit d1 = true
      case neg => rw [if_neg hd1] at h; simp at h
      rw [if_pos hd1] at h
      obtain ⟨c, hc, hap⟩ := nmAfterHour_ap h
      exact ⟨c, List.mem_cons_of_mem d1 hc, hap⟩

theorem attemptCD_head {c : Char} {t : List Char}
    {x : (ℕ × ℕ × Bool) × List Char × List Char}
    (h : attemptCD (c :: t) = some x) : pyIsDigit c = true := by
  obtain ⟨pay, g, rest⟩ := x
  obtain ⟨hs, hgne, hhead, -⟩ := attemptCD_spec h
  obtain ⟨gh, g', rfl⟩ := List.exists_cons_of_ne_nil hgne
  have : c = gh := by
    rw [List.cons_append] at hs
    exact (List.cons.injEq _ _ _ _ ▸ hs : _ ∧ _).1
  exact this ▸ hhead gh rfl

theorem cdAfterHour_none_head {h0 : ℕ} {hd : List Char} (s : List Char)
    (hs : ∀ c, s.head? = some c → isSep c = false) :
    cdAfterHour h0 hd s = none := by
  match s with
  | [] => rfl
  | c :: t =>
    rw [cdAfterHour.eq_def]
    dsimp only
    rw [if_neg (by simp [hs c rfl])]

theorem attemptCD_none_shape (dh rest0 : List Char)
    (hdh : ∀ c ∈ dh, pyIsDigit c = true)
    (hr : ∀ c ∈ rest0, pyIsDigit c = false)
    (hrh : ∀ c, rest0.head? = some c → isSep c = false) :
    attemptCD (dh ++ rest0) = none := by
  have hmix : ∀ c, (dh ++ rest0).head? = some c → isSep c = false := by
    intro c hc
    match dh, hc with
    | [], hc => exact hrh c hc
    | e :: dh', hc =>
      simp only [List.cons_append, List.head?_cons, Option.some.injEq] at hc
      exact hc ▸ digit_not_sep (hdh e (by simp))
  match dh with
  | [] =>
    match rest0 with
    | [] => rfl
    | [c] =>
      rw [List.nil_append, attemptCD, if_neg (by simp [hr c (by simp)])]
    | c :: c2 :: t =>
      rw [List.nil_append, attemptCD,
        if_neg (by simp [hr c (by simp)]), if_neg (by simp [hr c (by simp)])]
  | [d1] =>
    match rest0 with
    | [] =>
      rw [show ([d1] : List Char) ++ [] = [d1] from by simp, attemptCD]
      by_cases hd1 : pyIsDigit d1 = true
      · rw [if_pos hd1]
        rfl
      · rw [if_neg hd1]
    | c :: t =>
      rw [show ([d1] : List Char) ++ (c :: t) = d1 :: c :: t from rfl, attemptCD,
        if_neg (by simp [hr c (by simp)]), if_pos (hdh d1 (by simp))]
      exact cdAfterHour_none_head (c :: t) (fun e he => by
        simp only [List.head?_cons, Option.some.injEq] at he
        cases he
        exact hrh c rfl)
  | d1 :: d2 :: dh' =>
    rw [show (d1 :: d2 :: dh' : List Char) ++ rest0 = d1 :: d2 :: (dh' ++ rest0) from rfl,
      attemptCD, if_pos (by simp [hdh d1 (by simp), hdh d2 (by simp)])]
    rw [cdAfterHour_none_head (dh' ++ rest0) (fun e he => by
      match dh', he with
      | [], he => exact hrh e he
      | e' :: dh'', he =>
        simp only [List.cons_append, List.head?_cons, Option.some.injEq] at he
        exact he ▸ digit_not_sep (hdh e' (by simp)))]
    rw [cdAfterHour_none_head (d2 :: (dh' ++ rest0)) (fun e he => by
      simp only [List.head?_cons, Option.some.injEq] at he
      exact he ▸ digit_not_sep (hdh d2 (by simp)))]
    rfl

theorem searchFirst_hit {α : Type} {attempt : Option Char → List Char → Option (α × List Char × List Char)}
    {prev : Option Char} {c : Char} {t : List Char} {a : α} {g r : List Char}
    (h : attempt prev (c :: t) = some (a, g, r)) :
    searchFirst attempt prev (c :: t) = some (a, g) := by
  rw [searchFirst, h]

theorem searchFirst_CD_none_noap (l : List Char)
    (hl : ∀ c ∈ l, isAP c = false) :
    ∀ prev, searchFirst (fun _ => attemptCD) prev l = none := by
  induction l with
  | nil => intro prev; rfl
  | cons c t ih =>
    intro prev
    match hA : attemptCD (c :: t) with
    | some x =>
      obtain ⟨d, hd, hap⟩ := attemptCD_ap hA
      rw [hl d hd] at hap
      exact absurd hap (by simp)
    | none =>
      rw [searchFirst]
      rw [hA]
      exact ih (fun d hd => hl d (by simp [hd])) (some c)

theorem searchFirst_NM_none_noap (l : List Char)
    (hl : ∀ c ∈ l, isAP c = false) :
    ∀ prev, searchFirst attemptNM prev l = none := by
  induction l with
  | nil => intro prev; rfl
  | cons c t ih =>
    intro prev
    match hA : attemptNM prev (c :: t) with
    | some x =>
      obtain ⟨d, hd, hap⟩ := attemptNM_ap hA
      rw [hl d hd] at hap
      exact absurd hap (by simp)
    | none =>
      rw [searchFirst]
      rw [hA]
      exact ih (fun d hd => hl d (by simp [hd])) (some c)

theorem searchFirst_CD_none_nodigit (l : List Char)
    (hl : ∀ c ∈ l, pyIsDigit c = false) :
    ∀ prev, searchFirst (fun _ => attemptCD) prev l = none := by
  induction l with
  | nil => intro prev; rfl
  | cons c t ih =>
    intro prev
    match hA : attemptCD (c :: t) with
    | some x =>
      have := attemptCD_head hA
      rw [hl c (by simp)] at this
      exact absurd this (by simp)
    | none =>
      rw [searchFirst]
      rw [hA]
      exact ih (fun d hd => hl d (by simp [hd])) (some c)

theorem searchFirst_CD_none_digits (dh : List Char) (rest0 : List Char)
    (hdh : ∀ c ∈ dh, pyIsDigit c = true)
    (hr : ∀ c ∈ rest0, pyIsDigit c = false)
    (hrh : ∀ c, rest0.head? = some c → isSep c = false) :
    ∀ prev, searchFirst (fun _ => attemptCD) prev (dh ++ rest0) = none := by
  induction dh with
  | nil => exact searchFirst_CD_none_nodigit rest0 hr
  | cons d dh' ih =>
    intro prev
    rw [List.cons_append, searchFirst]
    rw [show attemptCD (d :: (dh' ++ rest0)) = none from by
      rw [show d :: (dh' ++ rest0) = (d :: dh') ++ rest0 from rfl]
      exact attemptCD_none_shape (d :: dh') rest0 hdh hr hrh]
    exact ih (fun c hc => hdh c (by simp [hc])) (some d)

theorem searchFirst_some {α : Type}
    {attempt : Option Char → List Char → Option (α × List Char × List Char)}
    {prev : Option Char} {s : List Char} {a : α} {g : List Char}
    (h : searchFirst attempt prev s = some (a, g)) :
    ∃ prev' s' r, attempt prev' s' = some (a, g, r) := by
  induction s generalizing prev with
  | nil => simp [searchFirst] at h
  | cons c t ih =>
    rw [searchFirst] at h
    match hA : attempt prev (c :: t) with
    | some (a', g', r') =>
      rw [hA] at h
      simp only [Option.some.injEq, Prod.mk.injEq] at h
      obtain ⟨rfl, rfl⟩ := h
      exact ⟨prev, c :: t, r', hA⟩
    | none =>
      rw [hA] at h
      exact ih h

theorem parse_timeVia24_roundtrip {s : List Char} {p : ParsedTime}
    (h : parse_timeVia24 s = some p) : parse_timeL p.original.data = some p := by
  rw [parse_timeVia24] at h
  match hH : searchFirst attemptH24 none s with
  | none => rw [hH] at h; simp at h
  | some ((h0, mn), g) =>
    rw [hH] at h
    dsimp only at h
    obtain ⟨prev', s', r, hA⟩ := searchFirst_some hH
    obtain ⟨hs', hchars, hhead, hlast, hreplay⟩ := attemptH24_spec hA
    have hgne : g ≠ [] := by
      intro hg0
      rw [hg0, show attemptH24 none ([] : List Char) = none from rfl] at hreplay
      exact absurd hreplay (by simp)
    have hstrip : pyStrip g = g := by
      refine pyStrip_eq_self g (fun c hc => ?_) hlast
      exact digit_not_space (hhead c hc)
    have hnoap : ∀ c ∈ g, isAP c = false := by
      intro c hc
      rcases hchars c hc with hd | rfl
      · exact digit_not_ap hd
      · decide
    have horig : p.original.data = g := by
      have : p.original = ⟨pyStrip g⟩ := by
        by_cases hv : 0 ≤ h0 ∧ h0 ≤ 23 ∧ 0 ≤ mn ∧ mn ≤ 59
        · rw [if_pos hv] at h
          by_cases h00 : h0 = 0
          · rw [if_pos h00] at h
            cases h
            rfl
          · rw [if_neg h00] at h
            by_cases h12 : h0 < 12
            · rw [if_pos h12] at h
              cases h
              rfl
            · rw [if_neg h12] at h
              by_cases he12 : h0 = 12
              · rw [if_pos he12] at h
                cases h
                rfl
              · rw [if_neg he12] at h
                cases h
                rfl
        · rw [if_neg hv] at h
          simp at h
      rw [this, hstrip]
    rw [horig, parse_timeL]
    rw [hstrip]
    rw [searchFirst_CD_none_noap g hnoap none]
    dsimp only
    rw [parse_timeViaNM]
    rw [searchFirst_NM_none_noap g hnoap none]
    dsimp only
    rw [parse_timeVia24]
    obtain ⟨gh, g', rfl⟩ := List.exists_cons_of_ne_nil hgne
    rw [searchFirst_hit (show attemptH24 none (gh :: g') = some ((h0, mn), gh :: g', [])
      from hreplay)]
    dsimp only
    exact h

theorem parse_timeViaNM_roundtrip {s : List Char} {p : ParsedTime}
    (h : parse_timeViaNM s = some p) : parse_timeL p.original.data = some p := by
  rw [parse_timeViaNM] at h
  match hNM : searchFirst attemptNM none s with
  | none =>
    rw [hNM] at h
    exact parse_timeVia24_roundtrip h
  | some ((h0, pm), g) =>
    rw [hNM] at h
    dsimp only at h
    by_cases hv : 1 ≤ h0 ∧ h0 ≤ 12
    case neg =>
      rw [if_neg hv] at h
      exact parse_timeVia24_roundtrip h
    rw [if_pos hv] at h
    obtain ⟨prev', s', r, hA⟩ := searchFirst_some hNM
    obtain ⟨hs', ⟨dh, rest0, hg, hdne, hdh, hr0, hr0h⟩, hhead, hlast, hreplay⟩ :=
      attemptNM_spec hA
    have hgne : g ≠ [] := by
      rw [hg]
      intro hc
      exact hdne (List.append_eq_nil.mp hc).1
    have hstrip : pyStrip g = g := by
      refine pyStrip_eq_self g (fun c hc => ?_) hlast
      exact digit_not_space (hhead c hc)
    have horig : p.original.data = g := by
      have : p.original = ⟨pyStrip g⟩ := by
        cases h
        rfl
      rw [this, hstrip]
    rw [horig, parse_timeL]
    rw [hstrip]
    rw [show searchFirst (fun _ => attemptCD) none g = none from by
      rw [hg]
      exact searchFirst_CD_none_digits dh rest0 hdh hr0 hr0h none]
    dsimp only
    rw [parse_timeViaNM]
    obtain ⟨gh, g', rfl⟩ := List.exists_cons_of_ne_nil hgne
    rw [searchFirst_hit (show attemptNM none (gh :: g') = some ((h0, pm), gh :: g', [])
      from hreplay)]
    dsimp only
    rw [if_pos hv]
    exact h

/-- The `parse_time` round trip: a successful parse re-parses its own
stored original text to the very same `ParsedTime`. -/
theorem parse_timeL_roundtrip {s0 : List Char} {p : ParsedTime}
    (h : parse_timeL s0 = some p) : parse_timeL p.original.data = some p := by
  rw [parse_timeL] at h
  match hCD : searchFirst (fun _ => attemptCD) none (pyStrip s0) with
  | none =>
    rw [hCD] at h
    exact parse_timeViaNM_roundtrip h
  | some ((h0, mn, pm), g) =>
    rw [hCD] at h
    dsimp only at h
    by_cases hv : 1 ≤ h0 ∧ h0 ≤ 12 ∧ 0 ≤ mn ∧ mn ≤ 59
    case neg =>
      rw [if_neg hv] at h
      exact parse_timeViaNM_roundtrip h
    rw [if_pos hv] at h
    obtain ⟨prev', s', r, hA0⟩ := searchFirst_some hCD
    have hA : attemptCD s' = some ((h0, mn, pm), g, r) := hA0
    obtain ⟨hs', hgne, hhead, hlast, hreplay⟩ := attemptCD_spec hA
    have hstrip : pyStrip g = g := by
      refine pyStrip_eq_self g (fun c hc => ?_) hlast
      exact digit_not_space (hhead c hc)
    have horig : p.original.data = g := by
      have : p.original = ⟨pyStrip g⟩ := by
        cases h
        rfl
      rw [this, hstrip]
    rw [horig, parse_timeL]
    rw [hstrip]
    obtain ⟨gh, g', rfl⟩ := List.exists_cons_of_ne_nil hgne
    rw [searchFirst_hit (show (fun (_ : Option Char) => attemptCD) none (gh :: g') =
      some ((h0, mn, pm), gh :: g', []) from hreplay)]
    dsimp only
    rw [if_pos hv]
    exact h

/-- C5 (round-trip): for every string `S` and every `ParsedTime` `t`
returned by `find_times S`, `parse_time` applied to `t`'s stored
original text succeeds and yields a `ParsedTime` whose formatted string
equals `t.formatted` (in fact it returns `t` itself). -/
theorem find_times_roundtrip (S : String) (t : ParsedTime)
    (ht : t ∈ find_times S) :
    ∃ t', parse_time t.original = some t' ∧ t'.formatted = t.formatted := by
  have ht2 : t ∈ collectTimes (timeMatchGroups S.data) [] := by
    rw [find_times, find_timesL] at ht
    exact (List.Perm.mem_iff (List.perm_insertionSort ptLe _)).mp ht
  obtain ⟨g, hg, hpg⟩ := collectTimes_mem ht2
  exact ⟨t, parse_timeL_roundtrip hpg, rfl⟩

theorem find_times_roundtrip_witness :
    (⟨9, 30, "AM", "9:30 am"⟩ : ParsedTime) ∈ find_times "Mass at 9:30 am" ∧
    ∃ t', parse_time (ParsedTime.original ⟨9, 30, "AM", "9:30 am"⟩) = some t' ∧
      t'.formatted = ParsedTime.formatted ⟨9, 30, "AM", "9:30 am"⟩ :=
  ⟨by decide, find_times_roundtrip "Mass at 9:30 am" ⟨9, 30, "AM", "9:30 am"⟩ (by decide)⟩

end MT
